import Mathlib

set_option maxHeartbeats 1000000
set_option maxRecDepth 100000

namespace AvianFinder

/-! Shallow embedding of `src/finder.cpp` (the Avian VM resource finder).

Conventions of the embedding:
a mapped archive region is a `List Nat` of bytes (each read is reduced mod 256,
as for `uint8_t`); a pointer into such a region is a `Nat` offset; a C string
(resource name, path) is a NUL-free byte list, so `strlen` is `List.length`;
fallible operations return `Option`; a call to `abort`/failed `expect`
(process-fatal) and the one non-terminating control path of `JarIndex::open`
are explicit outcome constructors.  The out-of-scope collaborators
(`System`, the DEFLATE codec, the `hash` helpers of `finder.h`) are modelled
from the spec, as marked on the corresponding definitions. -/

/-- Read one byte of a mapped region as `uint8_t`.  Reads outside the region
yield 0 (the verified paths below never depend on out-of-range bytes). -/
def byteAt (d : List Nat) (i : Nat) : Nat := d.getD i 0 % 256

/-- Little-endian 16-bit read, `JarIndex::get2`. -/
def get2 (d : List Nat) (p : Nat) : Nat :=
  byteAt d (p + 1) <<< 8 ||| byteAt d p

/-- Little-endian 32-bit read, `JarIndex::get4` (also `JarIndex::signature`). -/
def get4 (d : List Nat) (p : Nat) : Nat :=
  byteAt d (p + 3) <<< 24 ||| byteAt d (p + 2) <<< 16 ||| byteAt d (p + 1) <<< 8 ||| byteAt d p

/-- The `n` consecutive bytes of the region starting at `off`. -/
def readBytes (d : List Nat) (off n : Nat) : List Nat :=
  (List.range n).map (fun i => byteAt d (off + i))

/-- The anonymous-namespace helper `equal`: compare lengths first, then bytes. -/
def equalB (a b : List Nat) : Bool := if a.length = b.length then a == b else false

/-- Modelled from the spec: the entry-name byte hash declared in `finder.h`,
which is not part of the given source.  Spec §4.1 only asks for "the byte-hash
of `name`", computed identically by the length-delimited variant (used at
insertion) and the NUL-terminated variant (used at lookup); we use a 31-based
rolling hash reduced mod 2^32 (a `uint32_t`).  No claim depends on the exact
mixing function, only on the two call sites agreeing on equal byte strings. -/
def hashBytes (l : List Nat) : Nat := l.foldl (fun h b => (h * 31 + b) % 4294967296) 0

/-- `JarIndex::compressionMethod`: central-header field at offset 10. -/
def compressionMethod (d : List Nat) (p : Nat) : Nat := get2 d (p + 10)

/-- `JarIndex::compressedSize`: central-header field at offset 20. -/
def compressedSize (d : List Nat) (p : Nat) : Nat := get4 d (p + 20)

/-- `JarIndex::uncompressedSize`: central-header field at offset 24. -/
def uncompressedSize (d : List Nat) (p : Nat) : Nat := get4 d (p + 24)

/-- `JarIndex::fileNameLength`: central-header field at offset 28. -/
def fileNameLength (d : List Nat) (p : Nat) : Nat := get2 d (p + 28)

/-- `JarIndex::extraFieldLength`: central-header field at offset 30. -/
def extraFieldLength (d : List Nat) (p : Nat) : Nat := get2 d (p + 30)

/-- `JarIndex::commentFieldLength`: central-header field at offset 32. -/
def commentFieldLength (d : List Nat) (p : Nat) : Nat := get2 d (p + 32)

/-- `JarIndex::localHeaderOffset`: central-header field at offset 42. -/
def localHeaderOffset (d : List Nat) (p : Nat) : Nat := get4 d (p + 42)

/-- `JarIndex::localFileNameLength`: local-header field at offset 26. -/
def localFileNameLength (d : List Nat) (p : Nat) : Nat := get2 d (p + 26)

/-- `JarIndex::localExtraFieldLength`: local-header field at offset 28. -/
def localExtraFieldLength (d : List Nat) (p : Nat) : Nat := get2 d (p + 28)

/-- `JarIndex::centralDirectoryOffset`: EOCD field at offset 16. -/
def centralDirectoryOffset (d : List Nat) (p : Nat) : Nat := get4 d (p + 16)

/-- `JarIndex::fileName` plus its length: the entry name stored at central
header `p` (the name starts at `p + 46` and is `fileNameLength` bytes). -/
def entryName (d : List Nat) (p : Nat) : List Nat := readBytes d (p + 46) (fileNameLength d p)

/-- `JarIndex::fileData` as an offset: `localHeader + LocalHeaderSize (30) +
localFileNameLength + localExtraFieldLength`, with the two lengths read from
the local record itself. -/
def fileDataOffset (d : List Nat) (lho : Nat) : Nat :=
  lho + 30 + localFileNameLength d lho + localExtraFieldLength d lho

/-- `JarIndex::endOfEntry`: skip the fixed 46-byte header plus the name, extra
and comment fields. -/
def endOfEntry (d : List Nat) (p : Nat) : Nat :=
  p + 46 + fileNameLength d p + extraFieldLength d p + commentFieldLength d p

/-- `JarIndex::Node`: name hash plus the central-header pointer (an offset into
the archive region).  The intrusive `next` chain pointer is represented by the
node's position in its bucket list below. -/
structure Node where
  hash : Nat
  entry : Nat
deriving DecidableEq

/-- `JarIndex`: fixed capacity, the flat insertion-ordered node array
(`nodes`, whose length is the C `position` field), and the bucket table
(`table`), each bucket being its chain from head to tail. -/
structure JarIndex where
  capacity : Nat
  nodes : List Node
  table : List (List Node)
deriving DecidableEq

/-- `JarIndex::make`: empty index of the given capacity. -/
def JarIndex.make (c : Nat) : JarIndex :=
  ⟨c, [], List.replicate c []⟩

/-- The in-capacity branch of `JarIndex::add`: store the node at position
`position++` of the array and prepend it to bucket `hash & (capacity - 1)`. -/
def JarIndex.addSimple (idx : JarIndex) (h e : Nat) : JarIndex :=
  ⟨idx.capacity, idx.nodes ++ [⟨h, e⟩],
   idx.table.set (h &&& (idx.capacity - 1))
     (⟨h, e⟩ :: idx.table.getD (h &&& (idx.capacity - 1)) [])⟩

/-- `JarIndex::add`.  When full, allocate a doubled index, re-insert the first
`capacity` array slots in order, then insert the new entry.  The C code makes
these re-insertions through recursive `add` calls; since a doubled index has
room for `capacity + 1` further insertions whenever `capacity ≥ 1` (always, as
every index descends from `make(s, 32)` by doubling), each such call takes the
in-capacity branch, which is what this definition writes out directly. -/
def JarIndex.add (idx : JarIndex) (h e : Nat) : JarIndex :=
  if idx.nodes.length < idx.capacity then idx.addSimple h e
  else
    let grown := (idx.nodes.take idx.capacity).foldl
      (fun a n => a.addSimple n.hash n.entry) (JarIndex.make (idx.capacity * 2))
    grown.addSimple h e

/-- `JarIndex::findNode`: hash the name, walk the chain of bucket
`hash & (capacity - 1)`, return the first node whose stored name equals the
request byte-for-byte. -/
def JarIndex.findNode (idx : JarIndex) (d : List Nat) (name : List Nat) : Option Node :=
  (idx.table.getD (hashBytes name &&& (idx.capacity - 1)) []).find?
    (fun n => equalB name (entryName d n.entry))

/-- The backward end-of-central-directory scan of `JarIndex::open`: starting
from `end - 22` walk toward the region start, stopping at the first offset
holding the little-endian signature `0x06054b50`.  The loop condition is
`p > start`, so offset 0 is never examined and exhausting the scan yields
nothing. -/
def findEocd (d : List Nat) : Nat → Option Nat
  | 0 => none
  | p + 1 => if get4 d (p + 1) = 0x06054b50 then some (p + 1) else findEocd d p

/-- The forward central-directory walk of `JarIndex::open`: while inside the
region and looking at signature `0x02014b50`, insert the entry (hash of its
stored name, header offset) and skip to the next record; on a signature
mismatch stop and return the index built so far.  Running to or past the
region end without a mismatch makes the C code fall back into the backward
scan, re-find the same EOCD and repeat the walk forever; that non-terminating
path is `none`.  `fuel` only drives the recursion: each step advances by at
least 46 bytes, so `openIndex` passes fuel that can never run out before the
region end is reached. -/
def walkAux (d : List Nat) : Nat → Nat → JarIndex → Option JarIndex
  | 0, _, _ => none
  | fuel + 1, p, idx =>
    if p < d.length then
      if get4 d p = 0x02014b50 then
        walkAux d fuel (endOfEntry d p) (idx.add (hashBytes (entryName d p)) p)
      else some idx
    else none

/-- `JarIndex::open`: make a capacity-32 index, scan backward for the EOCD
record; if none is found return the empty index, otherwise jump to the
central-directory offset it declares and walk forward (`none` = the
non-terminating path described at `walkAux`). -/
def openIndex (d : List Nat) : Option JarIndex :=
  match findEocd d (d.length - 22) with
  | some pE => walkAux d d.length (centralDirectoryOffset d pE) (JarIndex.make 32)
  | none => some (JarIndex.make 32)

/-- A `System::Region` as handed out by `find`: a borrowed view into the
archive bytes (`PointerRegion`, kept as offset plus length — no bytes are
copied), an owned decompression buffer (`DataRegion`: its `length_` field and
its `data` contents), or a whole mapped file (the region a `DirectoryElement`
returns). -/
inductive Region where
  | pointer (off : Nat) (len : Nat)
  | data (len : Nat) (bytes : List Nat)
  | mapped (bytes : List Nat)
deriving DecidableEq

/-- Outcome of a `find`: no result (`0`), a region, a process-fatal
`abort`/failed `expect`, or non-termination of `JarIndex::open` during lazy
initialization. -/
inductive FindOutcome where
  | notFound
  | found (r : Region)
  | fatal
  | diverge
deriving DecidableEq

/-- `JarIndex::find`.  The DEFLATE codec is an out-of-scope collaborator;
modelled from the spec (§6): `inflate input expectedLen` is `some out` exactly
when raw inflate reports clean completion consuming the whole input and
producing exactly `expectedLen` bytes `out`, and `none` on any other outcome —
in which case the `expect(s, r == Z_STREAM_END)` in the source aborts the
process.  A compression method other than Stored (0) and Deflated (8) hits
`abort(s)`. -/
def JarIndex.find (inflate : List Nat → Nat → Option (List Nat)) (idx : JarIndex)
    (d : List Nat) (name : List Nat) : FindOutcome :=
  match idx.findNode d name with
  | some n =>
    if compressionMethod d n.entry = 0 then
      .found (.pointer (fileDataOffset d (localHeaderOffset d n.entry))
        (compressedSize d n.entry))
    else if compressionMethod d n.entry = 8 then
      match inflate (readBytes d (fileDataOffset d (localHeaderOffset d n.entry))
          (compressedSize d n.entry)) (uncompressedSize d n.entry) with
      | some out => .found (.data (uncompressedSize d n.entry) out)
      | none => .fatal
    else .fatal
  | none => .notFound

/-- `JarIndex::exists`: `findNode(name) != 0`. -/
def JarIndex.exists (idx : JarIndex) (d : List Nat) (name : List Nat) : Bool :=
  (idx.findNode d name).isSome

/-- The file classification of `System::identify`.  Spec §6 fixes the
codomain: `{File, Directory, DoesNotExist}`. -/
inductive FileType where
  | file
  | directory
  | doesNotExist
deriving DecidableEq

/-- Modelled from the spec: the out-of-scope `System` collaborator (§6,
`system.h` is not part of the given source).  `identify` classifies a path;
`map` memory-maps a whole file read-only and fails on anything that is not a
mappable regular file; `listDir` opens a directory handle and yields its entry
names in handle order (`none` when `open` fails); `inflate` is the DEFLATE
collaborator of `JarIndex.find`; `builtinData` stands for the
load-library/resolve-symbol/call sequence of `BuiltinElement::init`, giving
the embedded archive bytes for a builtin element's name or `none` when any of
those steps fails. -/
structure Sys where
  identify : List Nat → FileType
  map : List Nat → Option (List Nat)
  listDir : List Nat → Option (List (List Nat))
  inflate : List Nat → Nat → Option (List Nat)
  builtinData : List Nat → Option (List Nat)

/-- One search-path entry, by variant, owning its name/path string
(`DirectoryElement`, `JarElement`, `BuiltinElement`). -/
inductive Element where
  | directory (name : List Nat)
  | jar (name : List Nat)
  | builtin (name : List Nat)
deriving DecidableEq

/-- Result of the lazy `init` of an archive-backed element: the bytes never
became available (failed `map`, or failed library load/resolve/call: `region`
and `index` stay null), `JarIndex::open` did not terminate, or the mapped
bytes with their index. -/
inductive InitResult where
  | noArchive
  | diverged
  | ok (bytes : List Nat) (idx : JarIndex)
deriving DecidableEq

/-- `JarElement::init`: map the file named by the element, then build the
index over its bytes (idempotent; modelled denotationally). -/
def jarInit (sys : Sys) (name : List Nat) : InitResult :=
  match sys.map name with
  | none => .noArchive
  | some bytes =>
    match openIndex bytes with
    | some idx => .ok bytes idx
    | none => .diverged

/-- `BuiltinElement::init`: obtain the archive bytes from the loaded library,
then index them exactly as a jar. -/
def builtinInit (sys : Sys) (name : List Nat) : InitResult :=
  match sys.builtinData name with
  | none => .noArchive
  | some bytes =>
    match openIndex bytes with
    | some idx => .ok bytes idx
    | none => .diverged

/-- The `while (*name == '/') name++;` loop of `JarElement::find`/`exists`. -/
def stripSlashes (name : List Nat) : List Nat := name.dropWhile (fun b => b == 47)

/-- `Element::find` by variant.  A directory element maps
`name + "/" + request` (47 is `'/'`); archive-backed elements initialize
lazily, strip leading slashes, and delegate to the index (null index:
result 0). -/
def elementFind (sys : Sys) : Element → List Nat → FindOutcome
  | .directory dname, name =>
    match sys.map (dname ++ 47 :: name) with
    | some bytes => .found (.mapped bytes)
    | none => .notFound
  | .jar jname, name =>
    match jarInit sys jname with
    | .noArchive => .notFound
    | .diverged => .diverge
    | .ok bytes idx => JarIndex.find sys.inflate idx bytes (stripSlashes name)
  | .builtin bname, name =>
    match builtinInit sys bname with
    | .noArchive => .notFound
    | .diverged => .diverge
    | .ok bytes idx => JarIndex.find sys.inflate idx bytes (stripSlashes name)

/-- `Element::exists` by variant.  A directory element probes the appended
path with `identify` and reports anything but `TypeDoesNotExist`;
archive-backed elements consult the index (`none` = divergence of the lazy
`JarIndex::open`). -/
def elementExists (sys : Sys) : Element → List Nat → Option Bool
  | .directory dname, name =>
    some (sys.identify (dname ++ 47 :: name) != FileType.doesNotExist)
  | .jar jname, name =>
    match jarInit sys jname with
    | .noArchive => some false
    | .diverged => none
    | .ok bytes idx => some (JarIndex.exists idx bytes (stripSlashes name))
  | .builtin bname, name =>
    match builtinInit sys bname with
    | .noArchive => some false
    | .diverged => none
    | .ok bytes idx => some (JarIndex.exists idx bytes (stripSlashes name))

/-- `MyFinder::find`: walk the element list in path order; the first `find`
that yields a region wins.  A fatal or divergent element `find` never returns
to the loop, so it is the overall outcome. -/
def finderFind (sys : Sys) : List Element → List Nat → FindOutcome
  | [], _ => .notFound
  | e :: rest, name =>
    match elementFind sys e name with
    | .notFound => finderFind sys rest name
    | r => r

/-- `MyFinder::exists`: same traversal, short-circuiting on the first element
that reports the name (`none` = divergence inside an element). -/
def finderExists (sys : Sys) : List Element → List Nat → Option Bool
  | [], _ => some false
  | e :: rest, name =>
    match elementExists sys e name with
    | some true => some true
    | some false => finderExists sys rest name
    | none => none

/-- Two little-endian bytes of a 16-bit value (for building concrete test
archives). -/
def le2 (n : Nat) : List Nat := [n % 256, n / 256 % 256]

/-- Four little-endian bytes of a 32-bit value. -/
def le4 (n : Nat) : List Nat := [n % 256, n / 256 % 256, n / 65536 % 256, n / 16777216 % 256]

/-- A ZIP local file record (30-byte header, then name, no extra field, then
the raw entry data). -/
def mkLocal (name data : List Nat) : List Nat :=
  le4 0x04034b50 ++ le2 20 ++ le2 0 ++ le2 0 ++ le2 0 ++ le2 0 ++ le4 0 ++
  le4 data.length ++ le4 data.length ++ le2 name.length ++ le2 0 ++ name ++ data

/-- A ZIP central file header (46 bytes, then the name; no extra field or
comment). -/
def mkCentral (name : List Nat) (method csize usize lho : Nat) : List Nat :=
  le4 0x02014b50 ++ le2 20 ++ le2 20 ++ le2 0 ++ le2 method ++ le2 0 ++ le2 0 ++
  le4 0 ++ le4 csize ++ le4 usize ++ le2 name.length ++ le2 0 ++ le2 0 ++
  le2 0 ++ le2 0 ++ le4 0 ++ le4 lho ++ name

/-- A ZIP end-of-central-directory record (22 bytes, no comment) declaring the
given central-directory offset. -/
def mkEocd (cdOff : Nat) : List Nat :=
  le4 0x06054b50 ++ le2 0 ++ le2 0 ++ le2 0 ++ le2 0 ++ le4 0 ++ le4 cdOff ++ le2 0

/-- Concrete archive: one Stored entry named `"a"` with content `"hi"`. -/
def archStored : List Nat :=
  mkLocal [97] [104, 105] ++ mkCentral [97] 0 2 2 0 ++ mkEocd 33

/-- Concrete archive: one Deflated entry named `"b"`, compressed payload
`[1, 2, 3]`, declared uncompressed size 5. -/
def archDeflated : List Nat :=
  mkLocal [98] [1, 2, 3] ++ mkCentral [98] 8 3 5 0 ++ mkEocd 34

/-- Concrete archive: two Stored entries both named `"a"`, with contents
`[1]` (first) and `[2]` (second in central-directory order). -/
def archDup : List Nat :=
  mkLocal [97] [1] ++ mkLocal [97] [2] ++
  mkCentral [97] 0 1 1 0 ++ mkCentral [97] 0 1 1 32 ++ mkEocd 64

/-- A minimal 22-byte archive consisting of exactly an EOCD record (at region
offset 0). -/
def eocdOnly : List Nat := mkEocd 0

/-- A finite model filesystem for instantiating the `System` collaborator: a
regular file with its bytes, or a directory with its named children in the
order a directory handle yields them. -/
inductive FsTree where
  | file (content : List Nat)
  | dir (entries : List (List Nat × FsTree))

/-- Resolve a component path in a model filesystem. -/
def lookupPath : List (List Nat) → FsTree → Option FsTree
  | [], t => some t
  | _ :: _, .file _ => none
  | c :: cs, .dir es =>
    match es.find? (fun e => e.1 == c) with
    | some e => lookupPath cs e.2
    | none => none

/-- Split a byte path into its `'/'`-separated components, dropping empty
components (the collaborator resolves `"a//b"` and `"a/b/"` like POSIX).
`splitPathAux` returns the component currently being read (leftmost) and the
finished components after it. -/
def splitPathAux : List Nat → List Nat × List (List Nat)
  | [] => ([], [])
  | b :: rest =>
    if b = 47 then
      ([], if (splitPathAux rest).1 = [] then (splitPathAux rest).2
           else (splitPathAux rest).1 :: (splitPathAux rest).2)
    else (b :: (splitPathAux rest).1, (splitPathAux rest).2)

/-- The components of a byte path. -/
def splitPath (p : List Nat) : List (List Nat) :=
  if (splitPathAux p).1 = [] then (splitPathAux p).2
  else (splitPathAux p).1 :: (splitPathAux p).2

/-- No element of the list equals `b` (boolean form). -/
def allNe (b : Nat) (l : List Nat) : Bool := l.all (fun x => x != b)

/-- No two names repeat (boolean form). -/
def nodupB : List (List Nat) → Bool
  | [] => true
  | x :: xs => !xs.contains x && nodupB xs

mutual

/-- Well-formedness of a model filesystem: in every directory, entry names
are nonempty, contain no `'/'`, and are pairwise distinct — exactly what a
real directory listing guarantees. -/
def treeWF : FsTree → Bool
  | .file _ => true
  | .dir es =>
    (es.map Prod.fst).all (fun v => !v.isEmpty && allNe 47 v) &&
    nodupB (es.map Prod.fst) && treeWFEntries es

/-- Well-formedness of a list of directory entries. -/
def treeWFEntries : List (List Nat × FsTree) → Bool
  | [] => true
  | e :: rest => treeWF e.2 && treeWFEntries rest

end

/-- The `System` collaborator induced by a model filesystem (identify/map/
listDir resolve the byte path against the tree), together with a DEFLATE
oracle and a builtin-bytes table. -/
def sysOfTree (root : FsTree) (infl : List Nat → Nat → Option (List Nat))
    (bd : List Nat → Option (List Nat)) : Sys where
  identify p :=
    match lookupPath (splitPath p) root with
    | some (.file _) => .file
    | some (.dir _) => .directory
    | none => .doesNotExist
  map p :=
    match lookupPath (splitPath p) root with
    | some (.file c) => some c
    | _ => none
  listDir p :=
    match lookupPath (splitPath p) root with
    | some (.dir es) => some (es.map Prod.fst)
    | _ => none
  inflate := infl
  builtinData := bd

/-- State of a `DirectoryElement::Iterator`: the directory path it walks
(`dirpath`, the C `name`), the prefix length stripped from results (`skip`),
the entries its directory handle has not yet yielded (`pending`; empty when
`open` failed), and the nested child iterator currently delegated to
(`nested`, the C `it`). -/
inductive DirIter where
  | mk (dirpath : List Nat) (skip : Nat) (pending : List (List Nat)) (nested : Option DirIter)

/-- `DirectoryElement::Iterator::Iterator`: open the directory handle (failed
`open` leaves it null, i.e. nothing pending). -/
def dirIterNew (sys : Sys) (name : List Nat) (skip : Nat) : DirIter :=
  .mk name skip ((sys.listDir name).getD []) none

/-- The directory-scanning tail of `DirectoryElement::Iterator::next`: pull
handle entries, skipping those whose first character is `'.'` (46); for the
first other entry build `name + "/" + entry`, start a nested iterator on it
when it identifies as a directory, and yield the path with `skip` bytes
stripped. -/
def dirIterNextTop (sys : Sys) (path : List Nat) (skip : Nat) :
    List (List Nat) → Option (List Nat × DirIter)
  | [] => none
  | v :: rest =>
    if v.head? = some 46 then dirIterNextTop sys path skip rest
    else
      some ((path ++ 47 :: v).drop skip,
        .mk path skip rest
          (if sys.identify (path ++ 47 :: v) = .directory
           then some (dirIterNew sys (path ++ 47 :: v) skip) else none))

/-- `DirectoryElement::Iterator::next`: drain the nested iterator first; once
it is exhausted (or absent) continue scanning this directory's own entries. -/
def dirIterNext (sys : Sys) : DirIter → Option (List Nat × DirIter)
  | .mk path skip pending none => dirIterNextTop sys path skip pending
  | .mk path skip pending (some it) =>
    match dirIterNext sys it with
    | some (v, it') => some (v, .mk path skip pending (some it'))
    | none => dirIterNextTop sys path skip pending

/-- State of an element iterator: a directory walk, or a `JarElement::Iterator`
(archive bytes, the index's node array, and the position counter). -/
inductive ElemIter where
  | dir (it : DirIter)
  | jar (d : List Nat) (nodes : List Node) (pos : Nat)

/-- `Element::Iterator::next` by variant.  The jar iterator yields the stored
name (`fileName`/`fileNameLength` of the node's central header) of each node
in array (insertion) order. -/
def elemIterNext (sys : Sys) : ElemIter → Option (List Nat × ElemIter)
  | .dir it => (dirIterNext sys it).map (fun p => (p.1, .dir p.2))
  | .jar d nodes pos =>
    match nodes[pos]? with
    | some n => some (entryName d n.entry, .jar d nodes (pos + 1))
    | none => none

/-- `Element::iterator()` by variant.  A directory element strips
`strlen(name) + 1` bytes from every yielded path.  For an archive element the
C code calls `init()` and then unconditionally dereferences `index`; when
`init` failed (null index) that dereference crashes, and when `init` diverged
nothing returns — both are `none` here, and the iterator theorems assume
elements whose initialization succeeds. -/
def elementIterator (sys : Sys) : Element → Option ElemIter
  | .directory n => some (.dir (dirIterNew sys n (n.length + 1)))
  | .jar n =>
    match jarInit sys n with
    | .ok bytes idx => some (.jar bytes idx.nodes 0)
    | _ => none
  | .builtin n =>
    match builtinInit sys n with
    | .ok bytes idx => some (.jar bytes idx.nodes 0)
    | _ => none

/-- `MyIterator::MyIterator`: keep the tail of the element list and the first
element's iterator (nothing when the path is empty). -/
def myIterNew (sys : Sys) : List Element → List Element × Option ElemIter
  | [] => ([], none)
  | e :: rest => (rest, elementIterator sys e)

/-- The advancing loop of `MyIterator::next` once the current iterator is
exhausted: take the next element's fresh iterator, pull from it, and keep
advancing through the element list while iterators come up empty. -/
def myIterAux (sys : Sys) : List Element → Option (List Nat × (List Element × Option ElemIter))
  | [] => none
  | e :: rest' =>
    match elementIterator sys e with
    | none => none
    | some it0 =>
      match elemIterNext sys it0 with
      | some (v, it') => some (v, (rest', some it'))
      | none => myIterAux sys rest'

/-- `MyIterator::next`: pull from the current iterator; on exhaustion advance
through the remaining elements until a name is produced or the element list
is exhausted. -/
def myIterNext (sys : Sys) (rest : List Element) (cur : Option ElemIter) :
    Option (List Nat × (List Element × Option ElemIter)) :=
  match cur with
  | none => none
  | some it =>
    match elemIterNext sys it with
    | some (v, it') => some (v, (rest, some it'))
    | none => myIterAux sys rest

/-- Run a finder iterator to completion, collecting the yielded names (`fuel`
bounds the number of yields; the theorems supply enough). -/
def drainMy (sys : Sys) : Nat → List Element × Option ElemIter → List (List Nat)
  | 0, _ => []
  | fuel + 1, st =>
    match myIterNext sys st.1 st.2 with
    | some (v, st') => v :: drainMy sys fuel st'
    | none => []

/-- Run an element iterator to completion. -/
def drainElem (sys : Sys) : Nat → ElemIter → List (List Nat)
  | 0, _ => []
  | fuel + 1, it =>
    match elemIterNext sys it with
    | some (v, it') => v :: drainElem sys fuel it'
    | none => []

mutual

/-- The directory enumeration a `DirectoryElement::Iterator` performs, stated
denotationally over the model filesystem: the sequence of `skip`-stripped
paths below prefix `p`, depth-first in listing order, yielding each non-dot
entry before descending into it. -/
def treeEnum (p : List Nat) (skip : Nat) : FsTree → List (List Nat)
  | .file _ => []
  | .dir es => treeEnumEntries p skip es

/-- Enumeration of a directory's entry list. -/
def treeEnumEntries (p : List Nat) (skip : Nat) : List (List Nat × FsTree) → List (List Nat)
  | [] => []
  | (v, t) :: rest =>
    (if v.head? = some 46 then []
     else ((p ++ 47 :: v).drop skip) :: treeEnum (p ++ 47 :: v) skip t) ++
    treeEnumEntries p skip rest

end

/-- The enumeration a path at `p` will contribute: its subtree's enumeration
when `p` resolves to a directory, nothing otherwise. -/
def subtreeEnum (root : FsTree) (p : List Nat) (skip : Nat) : List (List Nat) :=
  match lookupPath (splitPath p) root with
  | some t => treeEnum p skip t
  | none => []

/-- What the pending entries of a directory iterator will still produce. -/
def pendDenot (root : FsTree) (p : List Nat) (skip : Nat) : List (List Nat) → List (List Nat)
  | [] => []
  | v :: rest =>
    (if v.head? = some 46 then []
     else ((p ++ 47 :: v).drop skip) :: subtreeEnum root (p ++ 47 :: v) skip) ++
    pendDenot root p skip rest

/-- What a directory iterator state will still produce: first the nested
iterator's remainder, then the pending entries. -/
def dirIterDenot (root : FsTree) : DirIter → List (List Nat)
  | .mk p skip pending nested =>
    (match nested with
     | some it => dirIterDenot root it
     | none => []) ++ pendDenot root p skip pending

/-- Consistency of a directory iterator state with the model filesystem: the
walked path resolves to a directory whose entry-name listing the pending list
is a suffix of, and the nested iterator (if any) is itself consistent. -/
def dirIterInv (root : FsTree) : DirIter → Prop
  | .mk p _ pending nested =>
    (∃ es, lookupPath (splitPath p) root = some (.dir es) ∧
      ∃ k, pending = (es.map Prod.fst).drop k) ∧
    (match nested with
     | some it => dirIterInv root it
     | none => True)

/-- What an element iterator state will still produce. -/
def elemIterDenot (root : FsTree) : ElemIter → List (List Nat)
  | .dir it => dirIterDenot root it
  | .jar d nodes pos => (nodes.drop pos).map (fun n => entryName d n.entry)

/-- Consistency of an element iterator state. -/
def elemIterInv (root : FsTree) : ElemIter → Prop
  | .dir it => dirIterInv root it
  | .jar _ _ _ => True

/-- An element on which iteration is well-defined: a directory element whose
path is a directory of the model filesystem, or an archive element whose lazy
initialization succeeds (file maps and `JarIndex::open` terminates). -/
def elemOK (root : FsTree) (sys : Sys) : Element → Bool
  | .directory n =>
    match lookupPath (splitPath n) root with
    | some (.dir _) => true
    | _ => false
  | .jar n =>
    match jarInit sys n with
    | .ok _ _ => true
    | _ => false
  | .builtin n =>
    match builtinInit sys n with
    | .ok _ _ => true
    | _ => false

/-- The enumeration contributed by one element: the denotational directory
walk, or the stored names of the index's node array in insertion order. -/
def elemDenot (root : FsTree) (sys : Sys) : Element → List (List Nat)
  | .directory n =>
    match lookupPath (splitPath n) root with
    | some t => treeEnum n (n.length + 1) t
    | none => []
  | .jar n =>
    match jarInit sys n with
    | .ok bytes idx => idx.nodes.map (fun nd => entryName bytes nd.entry)
    | _ => []
  | .builtin n =>
    match builtinInit sys n with
    | .ok bytes idx => idx.nodes.map (fun nd => entryName bytes nd.entry)
    | _ => []

/-- Concatenation of the images of a list-producing function, in order. -/
def concatMap {α β : Type} (f : α → List β) : List α → List β
  | [] => []
  | x :: xs => f x ++ concatMap f xs

/-- What the current element iterator (if any) will still produce. -/
def optDenot (root : FsTree) : Option ElemIter → List (List Nat)
  | some it => elemIterDenot root it
  | none => []

/-- Consistency of a finder iterator state: every remaining element is
iterable, the current iterator is consistent, and a missing current iterator
only occurs on the empty path. -/
def myInv (root : FsTree) (sys : Sys) (rest : List Element) (cur : Option ElemIter) : Prop :=
  (∀ e ∈ rest, elemOK root sys e = true) ∧
  (match cur with
   | some it => elemIterInv root it
   | none => rest = [])

/-- Nesting depth of a directory iterator (for inducting over delegation). -/
def dirDepth : DirIter → Nat
  | .mk _ _ _ none => 0
  | .mk _ _ _ (some it) => dirDepth it + 1

/-- Structural invariant of a `JarIndex` over archive `d` (spec §3/§8):
capacity is a power of two; the bucket table has `capacity` buckets; at most
`capacity` nodes are stored (the C node array's bound); every stored hash is
the byte-hash of the entry's stored name; and bucket `i` holds, head first,
exactly the reversal of the insertion-ordered nodes whose hash masks to `i`
(each insertion prepends to its chain). -/
def jarWF (d : List Nat) (idx : JarIndex) : Prop :=
  (∃ k, idx.capacity = 2 ^ k) ∧
  idx.table.length = idx.capacity ∧
  idx.nodes.length ≤ idx.capacity ∧
  (∀ n ∈ idx.nodes, n.hash = hashBytes (entryName d n.entry)) ∧
  (∀ i, idx.table.getD i [] =
    (idx.nodes.filter (fun n => n.hash &&& (idx.capacity - 1) == i)).reverse)

/-- The indices reachable by the source's construction discipline: start from
`make(s, 32)` and repeatedly `add` a central-header offset under the hash of
its stored name — exactly what `JarIndex::open` (and any rehash) does. -/
inductive ReachableIdx (d : List Nat) : JarIndex → Prop where
  | base : ReachableIdx d (JarIndex.make 32)
  | step {idx : JarIndex} (e : Nat) :
      ReachableIdx d idx → ReachableIdx d (idx.add (hashBytes (entryName d e)) e)

/-- Concrete archive: like `archStored` but content `"yo"`, for shadowing
tests. -/
def archStored2 : List Nat :=
  mkLocal [97] [121, 111] ++ mkCentral [97] 0 2 2 0 ++ mkEocd 33

/-- A `System` with an empty world (every probe fails). -/
def sysNone : Sys :=
  ⟨fun _ => .doesNotExist, fun _ => none, fun _ => none, fun _ _ => none, fun _ => none⟩

/-- A `System` with two regular files `[1]` and `[2]` holding the two
single-entry archives. -/
def sysTwoJars : Sys where
  identify p := if p = [1] ∨ p = [2] then .file else .doesNotExist
  map p := if p = [1] then some archStored else if p = [2] then some archStored2 else none
  listDir _ := none
  inflate _ _ := none
  builtinData _ := none

/-- Model filesystem with a directory `"d"` containing a subdirectory
`"s"`. -/
def treeSub : FsTree := .dir [([100], .dir [([115], .dir [])])]

/-- The `System` induced by `treeSub`. -/
def sysSub : Sys := sysOfTree treeSub (fun _ _ => none) (fun _ => none)

/-- The index `JarIndex::open` builds over `archStored`. -/
def idxStored : JarIndex := (JarIndex.make 32).add (hashBytes (entryName archStored 33)) 33

/-- The index `JarIndex::open` builds over `archDeflated`. -/
def idxDeflated : JarIndex := (JarIndex.make 32).add (hashBytes (entryName archDeflated 34)) 34

/-- The index `JarIndex::open` builds over `archDup`. -/
def idxDup : JarIndex :=
  ((JarIndex.make 32).add (hashBytes (entryName archDup 64)) 64).add
    (hashBytes (entryName archDup 111)) 111

/-- A DEFLATE oracle for the concrete deflated archive: inflating its payload
at the declared output size yields `[9, 9, 9, 9, 9]`. -/
def inflOracle : List Nat → Nat → Option (List Nat) :=
  fun i n => if i = [1, 2, 3] ∧ n = 5 then some [9, 9, 9, 9, 9] else none

/-- Model filesystem for the iterator witness: directory `"d"` (a file
`"a.t"`, a dot-file `".h"`, a subdirectory `"s"` containing `"b"`) and a
regular file `"j"` holding `archStored`. -/
def treeC7 : FsTree :=
  .dir [([100], .dir [([97, 46, 116], .file [1]), ([46, 104], .file [2]),
    ([115], .dir [([98], .file [3])])]), ([106], .file archStored)]

/-- The `System` induced by `treeC7`. -/
def sysC7 : Sys := sysOfTree treeC7 (fun _ _ => none) (fun _ => none)

/-- The two-element search path for the iterator witness. -/
def elsC7 : List Element := [.directory [100], .jar [106]]

/-! ### Helper lemmas -/

theorem equalB_iff {a b : List Nat} : equalB a b = true ↔ a = b := by
  unfold equalB
  by_cases h : a.length = b.length
  · rw [if_pos h]
    exact beq_iff_eq
  · rw [if_neg h]
    constructor
    · intro hf
      cases hf
    · intro he
      exact absurd (congrArg List.length he) h

theorem getD_replicate_nil {c i : Nat} :
    (List.replicate c ([] : List Node)).getD i [] = [] := by
  rw [List.getD_eq_getElem?_getD, List.getElem?_replicate]
  split <;> rfl

theorem findNode_make {c : Nat} {d name : List Nat} :
    (JarIndex.make c).findNode d name = none := by
  unfold JarIndex.findNode JarIndex.make
  simp only [getD_replicate_nil, List.find?_nil]

theorem findEocd_ne_some_zero (d : List Nat) (p : Nat) : findEocd d p ≠ some 0 := by
  induction p with
  | zero => simp [findEocd]
  | succ q ih =>
    unfold findEocd
    split
    · simp
    · exact ih

theorem find?_eq_head?_filter {α : Type} (p : α → Bool) (l : List α) :
    l.find? p = (l.filter p).head? := by
  induction l with
  | nil => rfl
  | cons a l ih =>
    by_cases h : p a
    · rw [List.find?_cons_of_pos l h, List.filter_cons_of_pos h, List.head?_cons]
    · rw [List.find?_cons_of_neg l h, List.filter_cons_of_neg h, ih]

theorem jarWF_make {d : List Nat} {k : Nat} : jarWF d (JarIndex.make (2 ^ k)) := by
  refine ⟨⟨k, rfl⟩, by simp [JarIndex.make], by simp [JarIndex.make], ?_, ?_⟩
  · intro n hn
    simp [JarIndex.make] at hn
  · intro i
    simp [JarIndex.make, getD_replicate_nil]

theorem mask_lt_capacity {c h : Nat} (hc : ∃ k, c = 2 ^ k) : h &&& (c - 1) < c := by
  obtain ⟨k, rfl⟩ := hc
  rw [Nat.and_pow_two_sub_one_eq_mod]
  exact Nat.mod_lt _ (Nat.pos_pow_of_pos k (by omega))

theorem addSimple_capacity (idx : JarIndex) (h e : Nat) :
    (idx.addSimple h e).capacity = idx.capacity := rfl

theorem addSimple_nodes (idx : JarIndex) (h e : Nat) :
    (idx.addSimple h e).nodes = idx.nodes ++ [⟨h, e⟩] := rfl

theorem addSimple_table (idx : JarIndex) (h e : Nat) :
    (idx.addSimple h e).table =
      idx.table.set (h &&& (idx.capacity - 1))
        (⟨h, e⟩ :: idx.table.getD (h &&& (idx.capacity - 1)) []) := rfl

theorem jarWF_addSimple {d : List Nat} {idx : JarIndex} {h e : Nat}
    (hwf : jarWF d idx) (hlen : idx.nodes.length < idx.capacity)
    (hh : h = hashBytes (entryName d e)) :
    jarWF d (idx.addSimple h e) ∧
    (idx.addSimple h e).nodes = idx.nodes ++ [⟨h, e⟩] ∧
    (idx.addSimple h e).capacity = idx.capacity := by
  obtain ⟨hcap, htlen, hsz, hhash, htab⟩ := hwf
  have hmask : h &&& (idx.capacity - 1) < idx.table.length := by
    rw [htlen]
    exact mask_lt_capacity hcap
  refine ⟨⟨hcap, ?_, ?_, ?_, ?_⟩, rfl, rfl⟩
  · rw [addSimple_table, addSimple_capacity, List.length_set]
    exact htlen
  · rw [addSimple_nodes, addSimple_capacity, List.length_append]
    simp only [List.length_singleton]
    omega
  · intro n hn
    rw [addSimple_nodes] at hn
    rcases List.mem_append.mp hn with hn | hn
    · exact hhash n hn
    · rw [List.mem_singleton.mp hn]
      exact hh
  · intro i
    rw [addSimple_table, addSimple_capacity, addSimple_nodes]
    by_cases hi : i = h &&& (idx.capacity - 1)
    · subst hi
      rw [List.getD_eq_getElem?_getD, List.getElem?_set_self hmask]
      simp only [Option.getD_some]
      rw [List.filter_append, htab]
      have hpred : (List.filter (fun n => n.hash &&& (idx.capacity - 1) ==
          h &&& (idx.capacity - 1)) [Node.mk h e]) = [Node.mk h e] := by
        simp [List.filter_cons]
      rw [hpred, List.reverse_append]
      simp
    · rw [List.getD_eq_getElem?_getD, List.getElem?_set_ne (fun hne => hi hne.symm),
        ← List.getD_eq_getElem?_getD, htab]
      rw [List.filter_append]
      have hpred : (List.filter (fun n => n.hash &&& (idx.capacity - 1) == i)
          [Node.mk h e]) = [] := by
        simp only [List.filter_cons, List.filter_nil]
        rw [if_neg]
        simp only [beq_iff_eq]
        exact fun hne => hi hne.symm
      rw [hpred, List.append_nil]

theorem jarWF_foldl {d : List Nat} (l : List Node) (acc : JarIndex)
    (hwf : jarWF d acc)
    (hlen : acc.nodes.length + l.length ≤ acc.capacity)
    (hh : ∀ n ∈ l, n.hash = hashBytes (entryName d n.entry)) :
    jarWF d (l.foldl (fun a n => a.addSimple n.hash n.entry) acc) ∧
    (l.foldl (fun a n => a.addSimple n.hash n.entry) acc).nodes = acc.nodes ++ l ∧
    (l.foldl (fun a n => a.addSimple n.hash n.entry) acc).capacity = acc.capacity := by
  induction l generalizing acc with
  | nil => exact ⟨hwf, by simp, rfl⟩
  | cons n l ih =>
    simp only [List.foldl_cons]
    have hstep := jarWF_addSimple (h := n.hash) (e := n.entry) hwf
      (by simp at hlen; omega) (hh n (by simp))
    have hrec := ih (acc.addSimple n.hash n.entry) hstep.1
      (by rw [hstep.2.1, hstep.2.2]; simp at hlen ⊢; omega)
      (fun m hm => hh m (by simp [hm]))
    refine ⟨hrec.1, ?_, by rw [hrec.2.2, hstep.2.2]⟩
    rw [hrec.2.1, hstep.2.1]
    simp

theorem jarWF_add {d : List Nat} {idx : JarIndex} {h e : Nat}
    (hwf : jarWF d idx) (hh : h = hashBytes (entryName d e)) :
    jarWF d (idx.add h e) ∧ (idx.add h e).nodes = idx.nodes ++ [⟨h, e⟩] := by
  unfold JarIndex.add
  by_cases hc : idx.nodes.length < idx.capacity
  · rw [if_pos hc]
    exact ⟨(jarWF_addSimple hwf hc hh).1, (jarWF_addSimple hwf hc hh).2.1⟩
  · rw [if_neg hc]
    obtain ⟨k, hk⟩ := hwf.1
    have hcpos : 0 < idx.capacity := hk ▸ Nat.pos_pow_of_pos k (by omega)
    have hfull : idx.nodes.length = idx.capacity :=
      Nat.le_antisymm hwf.2.2.1 (Nat.le_of_not_lt hc)
    have htake : idx.nodes.take idx.capacity = idx.nodes := by
      rw [← hfull]
      exact List.take_length idx.nodes
    rw [htake]
    have hmk : jarWF d (JarIndex.make (idx.capacity * 2)) := by
      have : idx.capacity * 2 = 2 ^ (k + 1) := by
        rw [hk, Nat.pow_succ]
      rw [this]
      exact jarWF_make
    have hfold := jarWF_foldl idx.nodes (JarIndex.make (idx.capacity * 2)) hmk
      (by simp [JarIndex.make, hfull]; omega) hwf.2.2.2.1
    have hsimple := jarWF_addSimple (h := h) (e := e) hfold.1
      (by rw [hfold.2.1, hfold.2.2]; simp [JarIndex.make, hfull]; omega) hh
    refine ⟨hsimple.1, ?_⟩
    rw [hsimple.2.1, hfold.2.1]
    simp [JarIndex.make]

theorem jarWF_walk {d : List Nat} :
    ∀ fuel p idx idx', jarWF d idx → walkAux d fuel p idx = some idx' → jarWF d idx' := by
  intro fuel
  induction fuel with
  | zero =>
    intro p idx idx' _ hw
    cases hw
  | succ n ih =>
    intro p idx idx' hwf hw
    simp only [walkAux] at hw
    by_cases hp : p < d.length
    · rw [if_pos hp] at hw
      by_cases hs : get4 d p = 0x02014b50
      · rw [if_pos hs] at hw
        exact ih _ _ _ (jarWF_add hwf rfl).1 hw
      · rw [if_neg hs] at hw
        cases hw
        exact hwf
    · rw [if_neg hp] at hw
      cases hw

theorem jarWF_of {d : List Nat} {idx : JarIndex}
    (h : openIndex d = some idx ∨ ReachableIdx d idx) : jarWF d idx := by
  have h32 : jarWF d (JarIndex.make 32) := by
    have : (32 : Nat) = 2 ^ 5 := by norm_num
    rw [this]
    exact jarWF_make
  rcases h with h | h
  · unfold openIndex at h
    rcases he : findEocd d (d.length - 22) with _ | pE
    · rw [he] at h
      cases h
      exact h32
    · rw [he] at h
      exact jarWF_walk _ _ _ _ h32 h
  · induction h with
    | base => exact h32
    | step e _ ih => exact (jarWF_add ih rfl).1

theorem findNode_eq_getLast {d : List Nat} {idx : JarIndex} (hwf : jarWF d idx)
    (name : List Nat) :
    idx.findNode d name =
      (idx.nodes.filter (fun n => equalB name (entryName d n.entry))).getLast? := by
  obtain ⟨hcap, htlen, hsz, hhash, htab⟩ := hwf
  unfold JarIndex.findNode
  rw [htab (hashBytes name &&& (idx.capacity - 1)), find?_eq_head?_filter,
    List.filter_reverse, List.head?_reverse, List.filter_filter]
  congr 1
  apply List.filter_congr
  intro n hn
  by_cases hp : equalB name (entryName d n.entry) = true
  · have hname : name = entryName d n.entry := equalB_iff.mp hp
    have : n.hash = hashBytes name := by rw [hhash n hn, ← hname]
    rw [hp, this]
    simp
  · simp only [Bool.not_eq_true] at hp
    rw [hp]
    simp

/-! ### Claim theorems -/

/-- C3: every index produced by `JarIndex::open`, or by any sequence of `add`
operations under the source's discipline (hash of the entry's stored name),
has a power-of-two capacity; every chained node sits in the bucket its hash
masks to; every inserted node is in the chain of bucket
`hash(name) & (capacity - 1)`; and `findNode` on any inserted entry's name
locates an entry with that exact stored name — regardless of how many
capacity-doubling rehashes occurred on the way. -/
theorem jarindex_capacity_pow2_bucket_invariant (d : List Nat) (idx : JarIndex)
    (h : openIndex d = some idx ∨ ReachableIdx d idx) :
    (∃ k, idx.capacity = 2 ^ k) ∧
    (∀ i, ∀ n ∈ idx.table.getD i [], n.hash &&& (idx.capacity - 1) = i) ∧
    (∀ n ∈ idx.nodes,
      n ∈ idx.table.getD (hashBytes (entryName d n.entry) &&& (idx.capacity - 1)) []) ∧
    (∀ n ∈ idx.nodes, ∃ m, idx.findNode d (entryName d n.entry) = some m ∧
      entryName d m.entry = entryName d n.entry) := by
  have hwf := jarWF_of h
  obtain ⟨hcap, htlen, hsz, hhash, htab⟩ := hwf
  refine ⟨hcap, ?_, ?_, ?_⟩
  · intro i n hn
    rw [htab i, List.mem_reverse, List.mem_filter] at hn
    exact beq_iff_eq.mp hn.2
  · intro n hn
    rw [htab, List.mem_reverse, List.mem_filter]
    refine ⟨hn, ?_⟩
    rw [hhash n hn]
    simp
  · intro n hn
    rw [findNode_eq_getLast ⟨hcap, htlen, hsz, hhash, htab⟩]
    have hmemf : n ∈ idx.nodes.filter
        (fun m => equalB (entryName d n.entry) (entryName d m.entry)) :=
      List.mem_filter.mpr ⟨hn, equalB_iff.mpr rfl⟩
    have hne : idx.nodes.filter
        (fun m => equalB (entryName d n.entry) (entryName d m.entry)) ≠ [] :=
      List.ne_nil_of_mem hmemf
    refine ⟨(idx.nodes.filter
        (fun m => equalB (entryName d n.entry) (entryName d m.entry))).getLast hne,
      List.getLast?_eq_getLast _ hne, ?_⟩
    have hm := List.getLast_mem hne
    rw [List.mem_filter] at hm
    exact (equalB_iff.mp hm.2).symm

/-- C3 witness: the singleton index over the concrete stored archive, reached
by one `add` step, has a power-of-two capacity and resolves its entry's
name. -/
theorem jarindex_invariant_witness :
    (∃ k, idxStored.capacity = 2 ^ k) ∧
    (∃ m, idxStored.findNode archStored (entryName archStored 33) = some m ∧
      entryName archStored m.entry = entryName archStored 33) := by
  have hc := jarindex_capacity_pow2_bucket_invariant archStored idxStored
    (Or.inr (ReachableIdx.step 33 ReachableIdx.base))
  exact ⟨hc.1, hc.2.2.2 ⟨hashBytes (entryName archStored 33), 33⟩ (by decide)⟩

theorem drainElem_jar (sys : Sys) (d : List Nat) :
    ∀ fuel (nodes : List Node) (pos : Nat), nodes.length - pos ≤ fuel →
    drainElem sys fuel (.jar d nodes pos) =
      (nodes.drop pos).map (fun n => entryName d n.entry) := by
  intro fuel
  induction fuel with
  | zero =>
    intro nodes pos hle
    rw [List.drop_eq_nil_of_le (by omega)]
    rfl
  | succ f ih =>
    intro nodes pos hle
    by_cases hp : pos < nodes.length
    · have hget : nodes[pos]? = some nodes[pos] := List.getElem?_eq_getElem hp
      simp only [drainElem, elemIterNext, hget]
      rw [ih nodes (pos + 1) (by omega), List.drop_eq_getElem_cons hp, List.map_cons]
    · have hget : nodes[pos]? = none := List.getElem?_eq_none (by omega)
      simp only [drainElem, elemIterNext, hget]
      rw [List.drop_eq_nil_of_le (by omega)]
      rfl

/-- C10: with duplicate names in the central directory, `findNode` (hence
`find` and `exists`) resolves a name to the entry appearing last in insertion
(central-directory) order — `add` prepends to the chain, `findNode` scans
from the head, and rehashes re-insert in insertion order, preserving this
across growths — while the jar iterator still yields every entry's name, one
per entry, in insertion order. -/
theorem duplicate_name_last_wins (d : List Nat) (idx : JarIndex) (sys : Sys)
    (name : List Nat) (fuel : Nat)
    (h : openIndex d = some idx ∨ ReachableIdx d idx)
    (hfuel : idx.nodes.length ≤ fuel) :
    idx.findNode d name =
      (idx.nodes.filter (fun n => equalB name (entryName d n.entry))).getLast? ∧
    drainElem sys fuel (.jar d idx.nodes 0) =
      idx.nodes.map (fun n => entryName d n.entry) := by
  refine ⟨findNode_eq_getLast (jarWF_of h) name, ?_⟩
  rw [drainElem_jar sys d fuel idx.nodes 0 (by omega), List.drop_zero]

/-- C10 witness: the concrete two-entry duplicate archive — `findNode "a"`
returns the second entry (central header at offset 111), and the iterator
yields `"a"` twice. -/
theorem duplicate_name_last_wins_witness :
    openIndex archDup = some idxDup ∧
    idxDup.findNode archDup [97] =
      (idxDup.nodes.filter (fun n => equalB [97] (entryName archDup n.entry))).getLast? ∧
    idxDup.findNode archDup [97] = some ⟨hashBytes (entryName archDup 111), 111⟩ ∧
    drainElem sysNone 2 (.jar archDup idxDup.nodes 0) = [[97], [97]] := by
  have hmain := duplicate_name_last_wins archDup idxDup sysNone [97] 2
    (Or.inl (by decide)) (by decide)
  refine ⟨by decide, hmain.1, by decide, ?_⟩
  rw [hmain.2]
  decide

/-- C9: the backward EOCD scan's loop condition is `p > start`, so offset 0 is
never examined; any region of at most 22 bytes (in particular a minimal
22-byte archive that is exactly an EOCD record) gets an index with no entries,
on which every lookup reports the name absent. -/
theorem small_region_empty_index (d : List Nat) (h : d.length ≤ 22) :
    openIndex d = some (JarIndex.make 32) ∧
    (JarIndex.make 32).nodes = [] ∧
    (∀ name, JarIndex.exists (JarIndex.make 32) d name = false) ∧
    (∀ inflate name, JarIndex.find inflate (JarIndex.make 32) d name = .notFound) ∧
    (∀ d' p, findEocd d' p ≠ some 0) := by
  refine ⟨?_, rfl, ?_, ?_, fun d' p => findEocd_ne_some_zero d' p⟩
  · unfold openIndex
    have h0 : d.length - 22 = 0 := by omega
    rw [h0]
    rfl
  · intro name
    simp [JarIndex.exists, findNode_make]
  · intro inflate name
    simp [JarIndex.find, findNode_make]

/-- C9 witness: the minimal 22-byte empty archive. -/
theorem small_region_empty_index_witness :
    openIndex eocdOnly = some (JarIndex.make 32) ∧
    JarIndex.exists (JarIndex.make 32) eocdOnly [97] = false :=
  ⟨(small_region_empty_index eocdOnly (by decide)).1,
   (small_region_empty_index eocdOnly (by decide)).2.2.1 [97]⟩

/-- C5: `JarIndex::open` signals no error on malformed structure.  If the
backward scan exhausts the region without an EOCD signature, the result is
the empty index; during the forward walk, a record whose signature is not
`0x02014b50` stops the walk and returns exactly the index built so far, while
a matching record is inserted and the walk continues behind it. -/
theorem open_malformed_stops_without_error (d : List Nat) (idx : JarIndex)
    (p fuel : Nat) :
    (findEocd d (d.length - 22) = none →
      openIndex d = some (JarIndex.make 32) ∧ (JarIndex.make 32).nodes = []) ∧
    (p < d.length → get4 d p ≠ 0x02014b50 → walkAux d (fuel + 1) p idx = some idx) ∧
    (p < d.length → get4 d p = 0x02014b50 →
      walkAux d (fuel + 1) p idx =
        walkAux d fuel (endOfEntry d p) (idx.add (hashBytes (entryName d p)) p)) := by
  refine ⟨?_, ?_, ?_⟩
  · intro h
    unfold openIndex
    rw [h]
    exact ⟨rfl, rfl⟩
  · intro hp hs
    simp only [walkAux]
    rw [if_pos hp, if_neg hs]
  · intro hp hs
    simp only [walkAux]
    rw [if_pos hp, if_pos hs]

/-- C5 witness: a 30-byte all-zero region has no EOCD and yields the empty
index; on the concrete stored archive, the walk stops at the EOCD record
(offset 80, not a central-header signature) and steps over the central header
at offset 33. -/
theorem open_malformed_witness :
    openIndex (List.replicate 30 0) = some (JarIndex.make 32) ∧
    walkAux archStored 1 80 (JarIndex.make 32) = some (JarIndex.make 32) ∧
    walkAux archStored 1 33 (JarIndex.make 32) =
      walkAux archStored 0 (endOfEntry archStored 33)
        ((JarIndex.make 32).add (hashBytes (entryName archStored 33)) 33) :=
  ⟨((open_malformed_stops_without_error (List.replicate 30 0) (JarIndex.make 32) 0 0).1
      (by decide)).1,
   (open_malformed_stops_without_error archStored (JarIndex.make 32) 80 0).2.1
      (by decide) (by decide),
   (open_malformed_stops_without_error archStored (JarIndex.make 32) 33 0).2.2
      (by decide) (by decide)⟩

/-- C4: on a matched Deflated (8) entry, `JarIndex::find` allocates the owned
buffer at exactly the declared uncompressed size, feeds raw inflate exactly
the compressed-size bytes at the entry's data offset, and any outcome other
than clean completion at those exact sizes — and any method other than 0 or
8 — is the process-fatal outcome, never an empty result. -/
theorem deflated_exact_or_fatal (inflate : List Nat → Nat → Option (List Nat))
    (idx : JarIndex) (d name : List Nat) (n : Node)
    (hn : idx.findNode d name = some n) :
    (compressionMethod d n.entry = 8 →
      JarIndex.find inflate idx d name =
        match inflate (readBytes d (fileDataOffset d (localHeaderOffset d n.entry))
            (compressedSize d n.entry)) (uncompressedSize d n.entry) with
        | some out => .found (.data (uncompressedSize d n.entry) out)
        | none => .fatal) ∧
    (compressionMethod d n.entry ≠ 0 → compressionMethod d n.entry ≠ 8 →
      JarIndex.find inflate idx d name = .fatal) := by
  constructor
  · intro hm
    simp only [JarIndex.find, hn]
    rw [if_neg (by rw [hm]; decide), if_pos hm]
  · intro h0 h8
    simp only [JarIndex.find, hn]
    rw [if_neg h0, if_neg h8]

/-- C4 witness: the concrete deflated archive under the concrete oracle. -/
theorem deflated_exact_or_fatal_witness :
    openIndex archDeflated = some idxDeflated ∧
    JarIndex.find inflOracle idxDeflated archDeflated [98] = .found (.data 5 [9, 9, 9, 9, 9]) ∧
    JarIndex.find (fun _ _ => none) idxDeflated archDeflated [98] = .fatal := by
  refine ⟨by decide, ?_, ?_⟩
  · rw [(deflated_exact_or_fatal inflOracle idxDeflated archDeflated [98]
      ⟨hashBytes (entryName archDeflated 34), 34⟩ (by decide)).1 (by decide)]
    decide
  · rw [(deflated_exact_or_fatal (fun _ _ => none) idxDeflated archDeflated [98]
      ⟨hashBytes (entryName archDeflated 34), 34⟩ (by decide)).1 (by decide)]

/-- C6: on a matched Stored (0) entry, `JarIndex::find` returns a borrowed
region (no byte copy — the region holds only an offset and a length): its
start is the archive offset `localHeaderOffset + 30 + that local record's
name length + its extra-field length`, its length the central header's
declared compressed size. -/
theorem stored_borrowed_region (inflate : List Nat → Nat → Option (List Nat))
    (idx : JarIndex) (d name : List Nat) (n : Node)
    (hn : idx.findNode d name = some n)
    (hm : compressionMethod d n.entry = 0) :
    JarIndex.find inflate idx d name =
      .found (.pointer
        (localHeaderOffset d n.entry + 30 +
          localFileNameLength d (localHeaderOffset d n.entry) +
          localExtraFieldLength d (localHeaderOffset d n.entry))
        (compressedSize d n.entry)) := by
  simp only [JarIndex.find, hn]
  rw [if_pos hm]
  rfl

/-- C6 witness: the concrete stored archive — the region points at archive
offset 31 (local header at 0, 30-byte header, 1-byte name, no extra field)
with length 2, exactly the bytes `"hi"`. -/
theorem stored_borrowed_region_witness :
    openIndex archStored = some idxStored ∧
    JarIndex.find (fun _ _ => none) idxStored archStored [97] = .found (.pointer 31 2) ∧
    readBytes archStored 31 2 = [104, 105] := by
  refine ⟨by decide, ?_, by decide⟩
  rw [stored_borrowed_region (fun _ _ => none) idxStored archStored [97]
    ⟨hashBytes (entryName archStored 33), 33⟩ (by decide) (by decide)]
  decide

theorem splitPathAux_no47 {v : List Nat} (h : 47 ∉ v) : splitPathAux v = (v, []) := by
  induction v with
  | nil => rfl
  | cons b rest ih =>
    have hb : b ≠ 47 := fun hb => h (by simp [hb])
    have hrest : 47 ∉ rest := fun hr => h (by simp [hr])
    simp only [splitPathAux]
    rw [if_neg hb, ih hrest]

theorem splitPath_no47 {v : List Nat} (h : 47 ∉ v) (hne : v ≠ []) :
    splitPath v = [v] := by
  unfold splitPath
  rw [splitPathAux_no47 h]
  simp [hne]

theorem splitPath_nil : splitPath [] = [] := rfl

theorem splitPathAux_cons (x : Nat) (rest : List Nat) :
    splitPathAux (x :: rest) =
      if x = 47 then
        ([], if (splitPathAux rest).1 = [] then (splitPathAux rest).2
             else (splitPathAux rest).1 :: (splitPathAux rest).2)
      else (x :: (splitPathAux rest).1, (splitPathAux rest).2) := rfl

theorem splitPath_eq (p : List Nat) :
    splitPath p =
      if (splitPathAux p).1 = [] then (splitPathAux p).2
      else (splitPathAux p).1 :: (splitPathAux p).2 := rfl

theorem splitPathAux_append47 (a b : List Nat) :
    splitPathAux (a ++ 47 :: b) =
      ((splitPathAux a).1, (splitPathAux a).2 ++ splitPath b) := by
  induction a with
  | nil =>
    rw [List.nil_append, splitPathAux_cons, if_pos rfl, splitPath_eq]
    rfl
  | cons x a ih =>
    rw [List.cons_append, splitPathAux_cons, ih, splitPathAux_cons x a]
    by_cases hx : x = 47
    · rw [if_pos hx, if_pos hx]
      dsimp only
      by_cases ha : (splitPathAux a).1 = []
      · rw [if_pos ha, if_pos ha]
      · rw [if_neg ha, if_neg ha, List.cons_append]
    · rw [if_neg hx, if_neg hx]

theorem splitPath_append47 (a b : List Nat) :
    splitPath (a ++ 47 :: b) = splitPath a ++ splitPath b := by
  rw [splitPath_eq (a ++ 47 :: b), splitPathAux_append47, splitPath_eq a]
  dsimp only
  by_cases ha : (splitPathAux a).1 = []
  · rw [if_pos ha, if_pos ha]
  · rw [if_neg ha, if_neg ha, List.cons_append]

theorem splitPath_append_single (a : List Nat) {v : List Nat} (h47 : 47 ∉ v)
    (hne : v ≠ []) : splitPath (a ++ 47 :: v) = splitPath a ++ [v] := by
  rw [splitPath_append47, splitPath_no47 h47 hne]

theorem splitPath_trailing47 (a : List Nat) : splitPath (a ++ [47]) = splitPath a := by
  have := splitPath_append47 a []
  simpa [splitPath_nil] using this

theorem splitPath_append_of_ends47 {preb v : List Nat}
    (hp : preb = [] ∨ ∃ q, preb = q ++ [47]) (h47 : 47 ∉ v) (hne : v ≠ []) :
    splitPath (preb ++ v) = splitPath preb ++ [v] := by
  rcases hp with hp | ⟨q, hp⟩
  · subst hp
    rw [List.nil_append, splitPath_no47 h47 hne, splitPath_nil, List.nil_append]
  · subst hp
    rw [List.append_assoc, List.singleton_append, splitPath_append_single q h47 hne,
      splitPath_trailing47]

theorem drop_append47_shape (p : List Nat) {skip : Nat} (h : skip ≤ p.length + 1) :
    (p ++ [47]).drop skip = [] ∨ ∃ q, (p ++ [47]).drop skip = q ++ [47] := by
  by_cases hs : skip ≤ p.length
  · right
    exact ⟨p.drop skip, List.drop_append_of_le_length hs⟩
  · left
    apply List.drop_eq_nil_of_le
    simp only [List.length_append, List.length_singleton]
    omega

theorem lookupPath_append (xs ys : List (List Nat)) (t : FsTree) :
    lookupPath (xs ++ ys) t = (lookupPath xs t).bind (fun u => lookupPath ys u) := by
  induction xs generalizing t with
  | nil => simp [lookupPath]
  | cons c xs ih =>
    cases t with
    | file content => rfl
    | dir es =>
      simp only [List.cons_append, lookupPath]
      cases es.find? (fun e => e.1 == c) with
      | none => rfl
      | some e => exact ih e.2

theorem find?_entry_of_mem {es : List (List Nat × FsTree)} {v : List Nat} {t : FsTree}
    (hmem : (v, t) ∈ es) (hnd : nodupB (es.map Prod.fst) = true) :
    es.find? (fun e => e.1 == v) = some (v, t) := by
  induction es with
  | nil => cases hmem
  | cons e es ih =>
    simp only [List.map_cons, nodupB, Bool.and_eq_true, Bool.not_eq_true'] at hnd
    rcases List.mem_cons.mp hmem with hmem | hmem
    · rw [← hmem]
      simp [List.find?_cons]
    · by_cases hv : e.1 = v
      · exfalso
        have hvmem : v ∈ es.map Prod.fst := List.mem_map.mpr ⟨(v, t), hmem, rfl⟩
        have helem : (es.map Prod.fst).contains v = true := by
          simp only [List.contains]
          exact List.elem_eq_true_of_mem hvmem
        rw [hv] at hnd
        rw [hnd.1] at helem
        cases helem
      · rw [List.find?_cons_of_neg _ (by simp [hv])]
        exact ih hmem hnd.2

theorem lookup_child {root : FsTree} {p : List Nat} {es : List (List Nat × FsTree)}
    {v : List Nat} {t : FsTree}
    (hlk : lookupPath (splitPath p) root = some (.dir es))
    (hmem : (v, t) ∈ es) (h47 : 47 ∉ v) (hne : v ≠ [])
    (hnd : nodupB (es.map Prod.fst) = true) :
    lookupPath (splitPath (p ++ 47 :: v)) root = some t := by
  rw [splitPath_append_single p h47 hne, lookupPath_append, hlk]
  show lookupPath [v] (.dir es) = some t
  simp only [lookupPath]
  rw [find?_entry_of_mem hmem hnd]

theorem treeWF_dir {es : List (List Nat × FsTree)} (h : treeWF (.dir es) = true) :
    ((es.map Prod.fst).all (fun v => !v.isEmpty && allNe 47 v) = true) ∧
    nodupB (es.map Prod.fst) = true ∧ treeWFEntries es = true := by
  simp only [treeWF, Bool.and_eq_true] at h
  exact ⟨h.1.1, h.1.2, h.2⟩

theorem treeWFEntries_mem {es : List (List Nat × FsTree)} {e : List Nat × FsTree}
    (h : treeWFEntries es = true) (hmem : e ∈ es) : treeWF e.2 = true := by
  induction es with
  | nil => cases hmem
  | cons e' es ih =>
    simp only [treeWFEntries, Bool.and_eq_true] at h
    rcases List.mem_cons.mp hmem with hmem | hmem
    · rw [hmem]
      exact h.1
    · exact ih h.2 hmem

theorem entry_name_ok {es : List (List Nat × FsTree)} {v : List Nat} {t : FsTree}
    (h : (es.map Prod.fst).all (fun v => !v.isEmpty && allNe 47 v) = true)
    (hmem : (v, t) ∈ es) : v ≠ [] ∧ 47 ∉ v := by
  have hv : v ∈ es.map Prod.fst := List.mem_map.mpr ⟨(v, t), hmem, rfl⟩
  have := (List.all_eq_true.mp h) v hv
  simp only [Bool.and_eq_true, Bool.not_eq_true'] at this
  constructor
  · intro hne
    rw [hne] at this
    simp [List.isEmpty] at this
  · intro h47
    have := this.2
    rw [allNe, List.all_eq_true] at this
    have := this 47 h47
    simp at this

theorem lookup_treeWF {root t : FsTree} {cs : List (List Nat)}
    (hroot : treeWF root = true) (hlk : lookupPath cs root = some t) :
    treeWF t = true := by
  induction cs generalizing root with
  | nil =>
    cases hlk
    exact hroot
  | cons c cs ih =>
    cases root with
    | file content => cases hlk
    | dir es =>
      simp only [lookupPath] at hlk
      rcases hf : es.find? (fun e => e.1 == c) with _ | e
      · rw [hf] at hlk
        cases hlk
      · rw [hf] at hlk
        have hmem := List.mem_of_find?_eq_some hf
        exact ih (treeWFEntries_mem (treeWF_dir hroot).2.2 hmem) hlk

theorem index_exists_iff_find_found (infl : List Nat → Nat → Option (List Nat))
    (idx : JarIndex) (d nm : List Nat)
    (hf : JarIndex.find infl idx d nm ≠ .fatal) :
    (JarIndex.exists idx d nm = true ↔ ∃ r, JarIndex.find infl idx d nm = .found r) := by
  cases hfn : idx.findNode d nm with
  | none =>
    simp [JarIndex.exists, JarIndex.find, hfn]
  | some n =>
    simp only [JarIndex.exists, hfn, Option.isSome_some, true_iff]
    have hfound : ∃ r, JarIndex.find infl idx d nm = .found r := by
      simp only [JarIndex.find, hfn]
      by_cases h0 : compressionMethod d n.entry = 0
      · rw [if_pos h0]
        exact ⟨_, rfl⟩
      · rw [if_neg h0]
        by_cases h8 : compressionMethod d n.entry = 8
        · rw [if_pos h8]
          cases hi : infl (readBytes d (fileDataOffset d (localHeaderOffset d n.entry))
              (compressedSize d n.entry)) (uncompressedSize d n.entry) with
          | some out => exact ⟨_, rfl⟩
          | none =>
            exfalso
            apply hf
            simp only [JarIndex.find, hfn]
            rw [if_neg h0, if_pos h8, hi]
        · exfalso
          apply hf
          simp only [JarIndex.find, hfn]
          rw [if_neg h0, if_neg h8]
    simp [hfound]

/-- C2 counterexample: on a directory element whose probe names a
subdirectory (`identify` yields `TypeDirectory`, so not `TypeDoesNotExist`,
while `map` of a directory fails), `exists` answers true but `find` returns
the empty result — so exists does not agree with find being non-empty. -/
theorem exists_find_agreement_counterexample :
    elementExists sysSub (.directory [100]) [115] = some true ∧
    elementFind sysSub (.directory [100]) [115] = .notFound := by
  constructor
  · decide
  · decide

/-- C2 amended: `exists(name)` is true exactly when `find(name)` is non-empty,
for every variant, provided `find` returns normally (no abort on an
unsupported compression method or corrupt deflate data, no divergence of the
lazy index construction) and, for a Directory element, the probed path is
mappable exactly when it exists at all — which fails precisely when the name
denotes a subdirectory, as in the counterexample. -/
theorem exists_find_agreement_amended (sys : Sys) (e : Element) (name : List Nat)
    (hdir : ∀ dnm, e = .directory dnm →
      ((sys.map (dnm ++ 47 :: name)).isSome ↔
        sys.identify (dnm ++ 47 :: name) ≠ .doesNotExist))
    (hf : elementFind sys e name ≠ .fatal)
    (hn : elementFind sys e name ≠ .diverge) :
    elementExists sys e name = some true ↔
      ∃ r, elementFind sys e name = .found r := by
  cases e with
  | directory dnm =>
    have hd := hdir dnm rfl
    have hiff : elementExists sys (.directory dnm) name = some true ↔
        sys.identify (dnm ++ 47 :: name) ≠ .doesNotExist := by
      simp [elementExists, bne_iff_ne]
    have hfind : (∃ r, elementFind sys (.directory dnm) name = .found r) ↔
        (sys.map (dnm ++ 47 :: name)).isSome := by
      simp only [elementFind]
      cases hm : sys.map (dnm ++ 47 :: name) with
      | some bytes => simp
      | none => simp
    rw [hiff]
    exact hd.symm.trans hfind.symm
  | jar jname =>
    cases hj : jarInit sys jname with
    | noArchive =>
      simp [elementExists, elementFind, hj]
    | diverged =>
      exfalso
      apply hn
      simp only [elementFind, hj]
    | ok bytes idx =>
      have hf' : JarIndex.find sys.inflate idx bytes (stripSlashes name) ≠ .fatal := by
        intro hc
        apply hf
        simp only [elementFind, hj, hc]
      simp only [elementExists, elementFind, hj, Option.some_inj]
      exact index_exists_iff_find_found sys.inflate idx bytes (stripSlashes name) hf'
  | builtin bname =>
    cases hj : builtinInit sys bname with
    | noArchive =>
      simp [elementExists, elementFind, hj]
    | diverged =>
      exfalso
      apply hn
      simp only [elementFind, hj]
    | ok bytes idx =>
      have hf' : JarIndex.find sys.inflate idx bytes (stripSlashes name) ≠ .fatal := by
        intro hc
        apply hf
        simp only [elementFind, hj, hc]
      simp only [elementExists, elementFind, hj, Option.some_inj]
      exact index_exists_iff_find_found sys.inflate idx bytes (stripSlashes name) hf'

/-- C2 witness for the amended claim: a jar element holding the name, and a
directory element probing a regular file, both satisfy the agreement's
hypotheses. -/
theorem exists_find_agreement_witness :
    (elementExists sysTwoJars (.jar [1]) [97] = some true ↔
      ∃ r, elementFind sysTwoJars (.jar [1]) [97] = .found r) ∧
    (elementExists sysC7 (.directory [100]) [97, 46, 116] = some true ↔
      ∃ r, elementFind sysC7 (.directory [100]) [97, 46, 116] = .found r) :=
  ⟨exists_find_agreement_amended sysTwoJars (.jar [1]) [97]
      (fun dnm h => by cases h) (by decide) (by decide),
   exists_find_agreement_amended sysC7 (.directory [100]) [97, 46, 116]
      (fun dnm h => by cases h; decide) (by decide) (by decide)⟩

/-- C1: `MyFinder::find` returns the result of the first element in path
order whose `find` is non-empty (earlier entries shadow later ones), and
`MyFinder::exists` is true exactly when some element on the path reports the
name, short-circuiting at the first such element — stated for paths on which
every element's operations return normally. -/
theorem finder_first_match_and_exists_any (sys : Sys) (es : List Element)
    (name : List Nat)
    (h : ∀ e ∈ es, elementFind sys e name ≠ .fatal ∧ elementFind sys e name ≠ .diverge ∧
      elementExists sys e name ≠ none) :
    (∀ r, finderFind sys es name = .found r ↔
      ∃ es₁ e es₂, es = es₁ ++ e :: es₂ ∧ elementFind sys e name = .found r ∧
        ∀ e' ∈ es₁, elementFind sys e' name = .notFound) ∧
    (finderExists sys es name = some true ↔
      ∃ e ∈ es, elementExists sys e name = some true) := by
  induction es with
  | nil =>
    constructor
    · intro r
      constructor
      · intro hr
        cases hr
      · rintro ⟨es₁, e, es₂, heq, -, -⟩
        exact absurd heq.symm (List.append_ne_nil_of_right_ne_nil es₁ (by simp))
    · simp [finderExists]
  | cons e es ih =>
    have he := h e (by simp)
    have ih' := ih (fun e' he' => h e' (by simp [he']))
    constructor
    · intro r
      rcases hfe : elementFind sys e name with _ | r₀
      · -- first element: not found, continue
        have hstep : finderFind sys (e :: es) name = finderFind sys es name := by
          simp only [finderFind, hfe]
        rw [hstep]
        constructor
        · intro hr
          obtain ⟨es₁, e', es₂, heq, hfound, hpre⟩ := (ih'.1 r).mp hr
          refine ⟨e :: es₁, e', es₂, by rw [heq]; rfl, hfound, ?_⟩
          intro e'' he''
          rcases List.mem_cons.mp he'' with he'' | he''
          · rw [he'']
            exact hfe
          · exact hpre e'' he''
        · rintro ⟨es₁, e', es₂, heq, hfound, hpre⟩
          rcases es₁ with _ | ⟨e₁, es₁'⟩
          · rw [List.nil_append] at heq
            cases heq
            rw [hfe] at hfound
            cases hfound
          · rw [List.cons_append] at heq
            injection heq with heq1 heq2
            subst heq1
            exact (ih'.1 r).mpr ⟨es₁', e', es₂, heq2, hfound, fun e'' he'' =>
              hpre e'' (by simp [he''])⟩
      · -- first element: found r₀
        have hstep : finderFind sys (e :: es) name = .found r₀ := by
          simp only [finderFind, hfe]
        rw [hstep]
        constructor
        · intro hr
          injection hr with hr
          exact ⟨[], e, es, rfl, by rw [hfe, hr], by simp⟩
        · rintro ⟨es₁, e', es₂, heq, hfound, hpre⟩
          rcases es₁ with _ | ⟨e₁, es₁'⟩
          · rw [List.nil_append] at heq
            cases heq
            rw [hfe] at hfound
            injection hfound with hr
            rw [hr]
          · rw [List.cons_append] at heq
            injection heq with heq1 heq2
            subst heq1
            have := hpre e (by simp)
            rw [hfe] at this
            cases this
      · exact absurd hfe he.1
      · exact absurd hfe he.2.1
    · rcases hee : elementExists sys e name with _ | b
      · exact absurd hee he.2.2
      · cases b with
        | true =>
          have hstep : finderExists sys (e :: es) name = some true := by
            simp only [finderExists, hee]
          rw [hstep]
          simp only [true_iff]
          exact ⟨e, by simp, hee⟩
        | false =>
          have hstep : finderExists sys (e :: es) name = finderExists sys es name := by
            simp only [finderExists, hee]
          rw [hstep, ih'.2]
          constructor
          · rintro ⟨e', he', hex⟩
            exact ⟨e', by simp [he'], hex⟩
          · rintro ⟨e', he', hex⟩
            rcases List.mem_cons.mp he' with he' | he'
            · subst he'
              rw [hee] at hex
              cases hex
            · exact ⟨e', he', hex⟩

/-- C1 witness: two jar elements both holding `"a"` with different contents —
the finder returns the first element's region; and with the name only in the
second element, existence still holds. -/
theorem finder_first_match_witness :
    (finderFind sysTwoJars [.jar [1], .jar [2]] [97] = .found (.pointer 31 2) ↔
      ∃ es₁ e es₂, ([Element.jar [1], Element.jar [2]] : List Element) = es₁ ++ e :: es₂ ∧
        elementFind sysTwoJars e [97] = .found (.pointer 31 2) ∧
        ∀ e' ∈ es₁, elementFind sysTwoJars e' [97] = .notFound) ∧
    (finderExists sysTwoJars [.jar [3], .jar [2]] [97] = some true ↔
      ∃ e ∈ ([Element.jar [3], Element.jar [2]] : List Element),
        elementExists sysTwoJars e [97] = some true) ∧
    finderFind sysTwoJars [.jar [1], .jar [2]] [97] = .found (.pointer 31 2) ∧
    finderExists sysTwoJars [.jar [3], .jar [2]] [97] = some true :=
  ⟨(finder_first_match_and_exists_any sysTwoJars [.jar [1], .jar [2]] [97]
      (by decide)).1 (.pointer 31 2),
   (finder_first_match_and_exists_any sysTwoJars [.jar [3], .jar [2]] [97]
      (by decide)).2,
   by decide, by decide⟩

/-- C8: archive-backed elements strip every leading `'/'` from the requested
name before consulting the index, so `find`/`exists` on a slash-prefixed name
coincide with the unprefixed ones, for Jar and Builtin alike. -/
theorem leading_slash_normalization (sys : Sys) (k : Nat)
    (name jname bname : List Nat) :
    elementFind sys (.jar jname) (List.replicate k 47 ++ name) =
      elementFind sys (.jar jname) name ∧
    elementExists sys (.jar jname) (List.replicate k 47 ++ name) =
      elementExists sys (.jar jname) name ∧
    elementFind sys (.builtin bname) (List.replicate k 47 ++ name) =
      elementFind sys (.builtin bname) name ∧
    elementExists sys (.builtin bname) (List.replicate k 47 ++ name) =
      elementExists sys (.builtin bname) name := by
  have hstrip : stripSlashes (List.replicate k 47 ++ name) = stripSlashes name := by
    induction k with
    | zero => rfl
    | succ m ih => simp [List.replicate_succ, stripSlashes]
  refine ⟨?_, ?_, ?_, ?_⟩ <;> simp only [elementFind, elementExists, hstrip]

theorem pendDenot_nil {root : FsTree} {p : List Nat} {skip : Nat} :
    pendDenot root p skip [] = [] := rfl

theorem pendDenot_cons {root : FsTree} {p : List Nat} {skip : Nat} {v : List Nat}
    {rest : List (List Nat)} :
    pendDenot root p skip (v :: rest) =
      (if v.head? = some 46 then []
       else ((p ++ 47 :: v).drop skip) :: subtreeEnum root (p ++ 47 :: v) skip) ++
      pendDenot root p skip rest := rfl

theorem treeEnumEntries_nil {p : List Nat} {skip : Nat} :
    treeEnumEntries p skip [] = [] := rfl

theorem treeEnumEntries_cons {p : List Nat} {skip : Nat} {v : List Nat} {t : FsTree}
    {rest : List (List Nat × FsTree)} :
    treeEnumEntries p skip ((v, t) :: rest) =
      (if v.head? = some 46 then []
       else ((p ++ 47 :: v).drop skip) :: treeEnum (p ++ 47 :: v) skip t) ++
      treeEnumEntries p skip rest := rfl

theorem treeEnum_dir {p : List Nat} {skip : Nat} {es : List (List Nat × FsTree)} :
    treeEnum p skip (.dir es) = treeEnumEntries p skip es := rfl

theorem treeEnum_file {p : List Nat} {skip : Nat} {c : List Nat} :
    treeEnum p skip (.file c) = [] := rfl

theorem pendDenot_entries {root : FsTree} {p : List Nat} {skip : Nat}
    {es : List (List Nat × FsTree)}
    (hroot : treeWF root = true)
    (hlk : lookupPath (splitPath p) root = some (.dir es)) :
    ∀ l : List (List Nat × FsTree), (∀ x ∈ l, x ∈ es) →
      pendDenot root p skip (l.map Prod.fst) = treeEnumEntries p skip l := by
  have hwfd : treeWF (.dir es) = true := lookup_treeWF hroot hlk
  obtain ⟨hnames, hnd, _⟩ := treeWF_dir hwfd
  intro l
  induction l with
  | nil =>
    intro _
    rfl
  | cons e l ih =>
    intro hsub
    obtain ⟨v, t⟩ := e
    rw [List.map_cons, pendDenot_cons, treeEnumEntries_cons,
      ih (fun x hx => hsub x (by simp [hx]))]
    congr 1
    by_cases hdot : v.head? = some 46
    · rw [if_pos hdot, if_pos hdot]
    · rw [if_neg hdot, if_neg hdot]
      congr 1
      have hvok := entry_name_ok hnames (hsub (v, t) (by simp))
      have hchild := lookup_child hlk (hsub (v, t) (by simp)) hvok.2 hvok.1 hnd
      unfold subtreeEnum
      rw [hchild]

theorem dirIterNextTop_cons {sys : Sys} {p : List Nat} {skip : Nat} {v : List Nat}
    {rest : List (List Nat)} :
    dirIterNextTop sys p skip (v :: rest) =
      if v.head? = some 46 then dirIterNextTop sys p skip rest
      else
        some ((p ++ 47 :: v).drop skip,
          .mk p skip rest
            (if sys.identify (p ++ 47 :: v) = .directory
             then some (dirIterNew sys (p ++ 47 :: v) skip) else none)) := rfl

theorem dirIterDenot_mk_none {root : FsTree} {p : List Nat} {skip : Nat}
    {pending : List (List Nat)} :
    dirIterDenot root (.mk p skip pending none) = pendDenot root p skip pending := by
  show [] ++ pendDenot root p skip pending = pendDenot root p skip pending
  rw [List.nil_append]

theorem dirIterDenot_mk_some {root : FsTree} {p : List Nat} {skip : Nat}
    {pending : List (List Nat)} {it : DirIter} :
    dirIterDenot root (.mk p skip pending (some it)) =
      dirIterDenot root it ++ pendDenot root p skip pending := rfl

theorem dirIterInv_mk_none {root : FsTree} {p : List Nat} {skip : Nat}
    {pending : List (List Nat)} :
    dirIterInv root (.mk p skip pending none) ↔
      (∃ es, lookupPath (splitPath p) root = some (.dir es) ∧
        ∃ k, pending = (es.map Prod.fst).drop k) :=
  ⟨fun h => h.1, fun h => ⟨h, trivial⟩⟩

theorem dirIterInv_mk_some {root : FsTree} {p : List Nat} {skip : Nat}
    {pending : List (List Nat)} {it : DirIter} :
    dirIterInv root (.mk p skip pending (some it)) ↔
      ((∃ es, lookupPath (splitPath p) root = some (.dir es) ∧
        ∃ k, pending = (es.map Prod.fst).drop k) ∧ dirIterInv root it) :=
  Iff.rfl

theorem subtreeEnum_eq {root : FsTree} {p : List Nat} {skip : Nat} {t : FsTree}
    (h : lookupPath (splitPath p) root = some t) :
    subtreeEnum root p skip = treeEnum p skip t := by
  unfold subtreeEnum
  rw [h]

theorem sysOfTree_identify_dir {root : FsTree}
    (infl : List Nat → Nat → Option (List Nat)) (bd : List Nat → Option (List Nat))
    {p : List Nat} {es : List (List Nat × FsTree)}
    (h : lookupPath (splitPath p) root = some (.dir es)) :
    (sysOfTree root infl bd).identify p = .directory := by
  show (match lookupPath (splitPath p) root with
    | some (.file _) => FileType.file
    | some (.dir _) => FileType.directory
    | none => FileType.doesNotExist) = _
  rw [h]

theorem sysOfTree_identify_file {root : FsTree}
    (infl : List Nat → Nat → Option (List Nat)) (bd : List Nat → Option (List Nat))
    {p : List Nat} {c : List Nat}
    (h : lookupPath (splitPath p) root = some (.file c)) :
    (sysOfTree root infl bd).identify p = .file := by
  show (match lookupPath (splitPath p) root with
    | some (.file _) => FileType.file
    | some (.dir _) => FileType.directory
    | none => FileType.doesNotExist) = _
  rw [h]

theorem sysOfTree_listDir_dir {root : FsTree}
    (infl : List Nat → Nat → Option (List Nat)) (bd : List Nat → Option (List Nat))
    {p : List Nat} {es : List (List Nat × FsTree)}
    (h : lookupPath (splitPath p) root = some (.dir es)) :
    (sysOfTree root infl bd).listDir p = some (es.map Prod.fst) := by
  show (match lookupPath (splitPath p) root with
    | some (.dir es) => some (es.map Prod.fst)
    | _ => none) = _
  rw [h]

theorem dirIterNew_eq {sys : Sys} {name : List Nat} {skip : Nat} :
    dirIterNew sys name skip = .mk name skip ((sys.listDir name).getD []) none := rfl

theorem scanStep {root : FsTree} (infl : List Nat → Nat → Option (List Nat))
    (bd : List Nat → Option (List Nat)) {p : List Nat} (skip : Nat)
    {es : List (List Nat × FsTree)}
    (hroot : treeWF root = true)
    (hlk : lookupPath (splitPath p) root = some (.dir es)) :
    ∀ pend : List (List Nat), (∃ k, pend = (es.map Prod.fst).drop k) →
      (dirIterNextTop (sysOfTree root infl bd) p skip pend = none →
        pendDenot root p skip pend = []) ∧
      (∀ v st', dirIterNextTop (sysOfTree root infl bd) p skip pend = some (v, st') →
        pendDenot root p skip pend = v :: dirIterDenot root st' ∧ dirIterInv root st') := by
  have hwfd : treeWF (.dir es) = true := lookup_treeWF hroot hlk
  obtain ⟨hnames, hnd, _⟩ := treeWF_dir hwfd
  intro pend
  induction pend with
  | nil =>
    intro _
    refine ⟨fun _ => rfl, fun v st' h => ?_⟩
    cases h
  | cons w rest ih =>
    rintro ⟨k, hk⟩
    have hrest : rest = (es.map Prod.fst).drop (k + 1) := by
      have h1 : (w :: rest).drop 1 = ((es.map Prod.fst).drop k).drop 1 := by rw [hk]
      rw [List.drop_drop] at h1
      simpa using h1
    have hwmem : w ∈ es.map Prod.fst := by
      apply List.mem_of_mem_drop (n := k)
      rw [← hk]
      exact List.mem_cons_self w rest
    obtain ⟨ew, hewmem, hew1⟩ := List.mem_map.mp hwmem
    obtain ⟨wv, wt⟩ := ew
    simp only at hew1
    subst hew1
    by_cases hdot : wv.head? = some 46
    · rw [dirIterNextTop_cons, if_pos hdot]
      have hih := ih ⟨k + 1, hrest⟩
      refine ⟨fun hn => ?_, fun v st' hs => ?_⟩
      · rw [pendDenot_cons, if_pos hdot, List.nil_append]
        exact hih.1 hn
      · rw [pendDenot_cons, if_pos hdot, List.nil_append]
        exact hih.2 v st' hs
    · rw [dirIterNextTop_cons, if_neg hdot]
      have hvok := entry_name_ok hnames hewmem
      have hchild := lookup_child hlk hewmem hvok.2 hvok.1 hnd
      refine ⟨fun hn => ?_, fun v st' hs => ?_⟩
      · cases hn
      · injection hs with hs1
        injection hs1 with hv hst'
        subst hv
        subst hst'
        cases wt with
        | file c =>
          have hnotdir : ¬(sysOfTree root infl bd).identify (p ++ 47 :: wv) = .directory := by
            rw [sysOfTree_identify_file infl bd hchild]
            intro hc
            cases hc
          rw [if_neg hnotdir]
          refine ⟨?_, ?_⟩
          · rw [pendDenot_cons, if_neg hdot, dirIterDenot_mk_none, List.cons_append,
              subtreeEnum_eq hchild, treeEnum_file, List.nil_append]
          · rw [dirIterInv_mk_none]
            exact ⟨es, hlk, k + 1, hrest⟩
        | dir es' =>
          have hisdir : (sysOfTree root infl bd).identify (p ++ 47 :: wv) = .directory :=
            sysOfTree_identify_dir infl bd hchild
          rw [if_pos hisdir]
          have hlist := sysOfTree_listDir_dir infl bd hchild
          refine ⟨?_, ?_⟩
          · rw [pendDenot_cons, if_neg hdot, dirIterDenot_mk_some, List.cons_append,
              subtreeEnum_eq hchild, treeEnum_dir, dirIterNew_eq, dirIterDenot_mk_none,
              hlist]
            rw [show (some (es'.map Prod.fst)).getD [] = es'.map Prod.fst from rfl]
            rw [pendDenot_entries hroot hchild es' (fun x hx => hx)]
          · rw [dirIterInv_mk_some]
            refine ⟨⟨es, hlk, k + 1, hrest⟩, ?_⟩
            rw [dirIterNew_eq, dirIterInv_mk_none, hlist]
            exact ⟨es', hchild, 0, rfl⟩

theorem dirIterNext_mk_none {sys : Sys} {p : List Nat} {skip : Nat}
    {pending : List (List Nat)} :
    dirIterNext sys (.mk p skip pending none) = dirIterNextTop sys p skip pending := rfl

theorem dirIterNext_delegate_some {sys : Sys} {p : List Nat} {skip : Nat}
    {pending : List (List Nat)} {it it' : DirIter} {v : List Nat}
    (h : dirIterNext sys it = some (v, it')) :
    dirIterNext sys (.mk p skip pending (some it)) =
      some (v, .mk p skip pending (some it')) := by
  show (match dirIterNext sys it with
    | some (v, it') => some (v, DirIter.mk p skip pending (some it'))
    | none => dirIterNextTop sys p skip pending) = _
  rw [h]

theorem dirIterNext_delegate_none {sys : Sys} {p : List Nat} {skip : Nat}
    {pending : List (List Nat)} {it : DirIter}
    (h : dirIterNext sys it = none) :
    dirIterNext sys (.mk p skip pending (some it)) = dirIterNextTop sys p skip pending := by
  show (match dirIterNext sys it with
    | some (v, it') => some (v, DirIter.mk p skip pending (some it'))
    | none => dirIterNextTop sys p skip pending) = _
  rw [h]

theorem dirStepTop {root : FsTree} (infl : List Nat → Nat → Option (List Nat))
    (bd : List Nat → Option (List Nat)) {p : List Nat} {skip : Nat}
    {pending : List (List Nat)}
    (hroot : treeWF root = true)
    (hinv : dirIterInv root (.mk p skip pending none)) :
    (dirIterNext (sysOfTree root infl bd) (.mk p skip pending none) = none →
      dirIterDenot root (.mk p skip pending none) = []) ∧
    (∀ v it', dirIterNext (sysOfTree root infl bd) (.mk p skip pending none) =
        some (v, it') →
      dirIterDenot root (.mk p skip pending none) = v :: dirIterDenot root it' ∧
      dirIterInv root it') := by
  obtain ⟨es, hlk, hk⟩ := dirIterInv_mk_none.mp hinv
  have hs := scanStep infl bd skip hroot hlk pending hk
  constructor
  · intro hn
    rw [dirIterNext_mk_none] at hn
    rw [dirIterDenot_mk_none]
    exact hs.1 hn
  · intro v it' h
    rw [dirIterNext_mk_none] at h
    rw [dirIterDenot_mk_none]
    exact hs.2 v it' h

theorem dirStep {root : FsTree} (infl : List Nat → Nat → Option (List Nat))
    (bd : List Nat → Option (List Nat)) (hroot : treeWF root = true) :
    ∀ n it, dirDepth it ≤ n → dirIterInv root it →
      (dirIterNext (sysOfTree root infl bd) it = none → dirIterDenot root it = []) ∧
      (∀ v it', dirIterNext (sysOfTree root infl bd) it = some (v, it') →
        dirIterDenot root it = v :: dirIterDenot root it' ∧ dirIterInv root it') := by
  intro n
  induction n with
  | zero =>
    intro it hd hinv
    obtain ⟨p, skip, pending, nested⟩ := it
    cases nested with
    | some itn =>
      exfalso
      simp only [dirDepth] at hd
      omega
    | none => exact dirStepTop infl bd hroot hinv
  | succ m ih =>
    intro it hd hinv
    obtain ⟨p, skip, pending, nested⟩ := it
    cases nested with
    | none => exact dirStepTop infl bd hroot hinv
    | some itn =>
      have hdn : dirDepth itn ≤ m := by
        simp only [dirDepth] at hd
        omega
      have hinvn : dirIterInv root itn := (dirIterInv_mk_some.mp hinv).2
      have hpart := (dirIterInv_mk_some.mp hinv).1
      have hihn := ih itn hdn hinvn
      rcases hstep : dirIterNext (sysOfTree root infl bd) itn with _ | ⟨v0, itn'⟩
      · have hden : dirIterDenot root itn = [] := hihn.1 hstep
        obtain ⟨es, hlk, hk⟩ := hpart
        have hs := scanStep infl bd skip hroot hlk pending hk
        constructor
        · intro hn
          rw [dirIterNext_delegate_none hstep] at hn
          rw [dirIterDenot_mk_some, hden, List.nil_append]
          exact hs.1 hn
        · intro v it' h
          rw [dirIterNext_delegate_none hstep] at h
          rw [dirIterDenot_mk_some, hden, List.nil_append]
          exact hs.2 v it' h
      · constructor
        · intro hn
          rw [dirIterNext_delegate_some hstep] at hn
          cases hn
        · intro v it' h
          rw [dirIterNext_delegate_some hstep] at h
          injection h with h1
          injection h1 with hv hit'
          subst hv
          subst hit'
          have hrec := hihn.2 v0 itn' hstep
          constructor
          · rw [dirIterDenot_mk_some, dirIterDenot_mk_some, hrec.1, List.cons_append]
          · rw [dirIterInv_mk_some]
            exact ⟨hpart, hrec.2⟩

theorem elemIterDenot_dir {root : FsTree} {dit : DirIter} :
    elemIterDenot root (.dir dit) = dirIterDenot root dit := rfl

theorem elemIterDenot_jar {root : FsTree} {d : List Nat} {nodes : List Node} {pos : Nat} :
    elemIterDenot root (.jar d nodes pos) =
      (nodes.drop pos).map (fun n => entryName d n.entry) := rfl

theorem elemIterInv_dir {root : FsTree} {dit : DirIter} :
    elemIterInv root (.dir dit) ↔ dirIterInv root dit := Iff.rfl

theorem elemIterInv_jar {root : FsTree} {d : List Nat} {nodes : List Node} {pos : Nat} :
    elemIterInv root (.jar d nodes pos) := trivial

theorem elemIterNext_dir_of_some {sys : Sys} {dit dit' : DirIter} {v : List Nat}
    (h : dirIterNext sys dit = some (v, dit')) :
    elemIterNext sys (.dir dit) = some (v, .dir dit') := by
  show (dirIterNext sys dit).map (fun q => (q.1, ElemIter.dir q.2)) = _
  rw [h]
  rfl

theorem elemIterNext_dir_of_none {sys : Sys} {dit : DirIter}
    (h : dirIterNext sys dit = none) :
    elemIterNext sys (.dir dit) = none := by
  show (dirIterNext sys dit).map (fun q => (q.1, ElemIter.dir q.2)) = _
  rw [h]
  rfl

theorem elemIterNext_jar_of_some {sys : Sys} {d : List Nat} {nodes : List Node}
    {pos : Nat} {n : Node} (h : nodes[pos]? = some n) :
    elemIterNext sys (.jar d nodes pos) =
      some (entryName d n.entry, .jar d nodes (pos + 1)) := by
  show (match nodes[pos]? with
    | some n => some (entryName d n.entry, ElemIter.jar d nodes (pos + 1))
    | none => none) = _
  rw [h]

theorem elemIterNext_jar_of_none {sys : Sys} {d : List Nat} {nodes : List Node}
    {pos : Nat} (h : nodes[pos]? = none) :
    elemIterNext sys (.jar d nodes pos) = none := by
  show (match nodes[pos]? with
    | some n => some (entryName d n.entry, ElemIter.jar d nodes (pos + 1))
    | none => none) = _
  rw [h]

theorem elemStep {root : FsTree} (infl : List Nat → Nat → Option (List Nat))
    (bd : List Nat → Option (List Nat)) (hroot : treeWF root = true) :
    ∀ it, elemIterInv root it →
      (elemIterNext (sysOfTree root infl bd) it = none → elemIterDenot root it = []) ∧
      (∀ v it', elemIterNext (sysOfTree root infl bd) it = some (v, it') →
        elemIterDenot root it = v :: elemIterDenot root it' ∧ elemIterInv root it') := by
  intro it hinv
  cases it with
  | dir dit =>
    have hd := dirStep infl bd hroot (dirDepth dit) dit (Nat.le_refl _)
      (elemIterInv_dir.mp hinv)
    constructor
    · intro hn
      rcases hdn : dirIterNext (sysOfTree root infl bd) dit with _ | ⟨v0, dit'⟩
      · rw [elemIterDenot_dir]
        exact hd.1 hdn
      · rw [elemIterNext_dir_of_some hdn] at hn
        cases hn
    · intro v it' h
      rcases hdn : dirIterNext (sysOfTree root infl bd) dit with _ | ⟨v0, dit'⟩
      · rw [elemIterNext_dir_of_none hdn] at h
        cases h
      · rw [elemIterNext_dir_of_some hdn] at h
        injection h with h1
        injection h1 with hv hit'
        subst hv
        subst hit'
        have hrec := hd.2 v0 dit' hdn
        exact ⟨by rw [elemIterDenot_dir, elemIterDenot_dir, hrec.1],
          elemIterInv_dir.mpr hrec.2⟩
  | jar d nodes pos =>
    constructor
    · intro hn
      rcases hg : nodes[pos]? with _ | n
      · have hplen : nodes.length ≤ pos := List.getElem?_eq_none_iff.mp hg
        rw [elemIterDenot_jar, List.drop_eq_nil_of_le hplen]
        rfl
      · rw [elemIterNext_jar_of_some hg] at hn
        cases hn
    · intro v it' h
      rcases hg : nodes[pos]? with _ | n
      · rw [elemIterNext_jar_of_none hg] at h
        cases h
      · rw [elemIterNext_jar_of_some hg] at h
        injection h with h1
        injection h1 with hv hit'
        subst hv
        subst hit'
        obtain ⟨hp, hval⟩ := List.getElem?_eq_some_iff.mp hg
        constructor
        · rw [elemIterDenot_jar, elemIterDenot_jar, List.drop_eq_getElem_cons hp,
            List.map_cons, hval]
        · exact elemIterInv_jar

theorem optDenot_none {root : FsTree} : optDenot root none = [] := rfl

theorem optDenot_some {root : FsTree} {it : ElemIter} :
    optDenot root (some it) = elemIterDenot root it := rfl

theorem concatMap_nil {α β : Type} {f : α → List β} : concatMap f [] = [] := rfl

theorem concatMap_cons {α β : Type} {f : α → List β} {x : α} {xs : List α} :
    concatMap f (x :: xs) = f x ++ concatMap f xs := rfl

theorem myInv_none {root : FsTree} {sys : Sys} {rest : List Element} :
    myInv root sys rest none ↔
      ((∀ e ∈ rest, elemOK root sys e = true) ∧ rest = []) := Iff.rfl

theorem myInv_some {root : FsTree} {sys : Sys} {rest : List Element} {it : ElemIter} :
    myInv root sys rest (some it) ↔
      ((∀ e ∈ rest, elemOK root sys e = true) ∧ elemIterInv root it) := Iff.rfl

theorem elementIterator_spec {root : FsTree} (infl : List Nat → Nat → Option (List Nat))
    (bd : List Nat → Option (List Nat)) (hroot : treeWF root = true)
    (e : Element) (hok : elemOK root (sysOfTree root infl bd) e = true) :
    ∃ it₀, elementIterator (sysOfTree root infl bd) e = some it₀ ∧
      elemIterInv root it₀ ∧
      elemIterDenot root it₀ = elemDenot root (sysOfTree root infl bd) e := by
  cases e with
  | directory n =>
    rcases hlk : lookupPath (splitPath n) root with _ | t
    · exfalso
      have hfalse : elemOK root (sysOfTree root infl bd) (.directory n) = false := by
        show (match lookupPath (splitPath n) root with
          | some (.dir _) => true
          | _ => false) = false
        rw [hlk]
      rw [hfalse] at hok
      cases hok
    · cases t with
      | file c =>
        exfalso
        have hfalse : elemOK root (sysOfTree root infl bd) (.directory n) = false := by
          show (match lookupPath (splitPath n) root with
            | some (.dir _) => true
            | _ => false) = false
          rw [hlk]
        rw [hfalse] at hok
        cases hok
      | dir es =>
        refine ⟨.dir (dirIterNew (sysOfTree root infl bd) n (n.length + 1)), rfl, ?_, ?_⟩
        · rw [elemIterInv_dir, dirIterNew_eq, dirIterInv_mk_none]
          refine ⟨es, hlk, 0, ?_⟩
          rw [sysOfTree_listDir_dir infl bd hlk]
          rfl
        · rw [elemIterDenot_dir, dirIterNew_eq, dirIterDenot_mk_none,
            sysOfTree_listDir_dir infl bd hlk]
          rw [show (some (es.map Prod.fst)).getD [] = es.map Prod.fst from rfl]
          rw [pendDenot_entries hroot hlk es (fun x hx => hx)]
          show _ = (match lookupPath (splitPath n) root with
            | some t => treeEnum n (n.length + 1) t
            | none => [])
          rw [hlk]
          rfl
  | jar n =>
    rcases hj : jarInit (sysOfTree root infl bd) n with _ | _ | ⟨bytes, idx⟩
    · exfalso
      have hfalse : elemOK root (sysOfTree root infl bd) (.jar n) = false := by
        show (match jarInit (sysOfTree root infl bd) n with
          | .ok _ _ => true
          | _ => false) = false
        rw [hj]
      rw [hfalse] at hok
      cases hok
    · exfalso
      have hfalse : elemOK root (sysOfTree root infl bd) (.jar n) = false := by
        show (match jarInit (sysOfTree root infl bd) n with
          | .ok _ _ => true
          | _ => false) = false
        rw [hj]
      rw [hfalse] at hok
      cases hok
    · refine ⟨.jar bytes idx.nodes 0, ?_, elemIterInv_jar, ?_⟩
      · show (match jarInit (sysOfTree root infl bd) n with
          | .ok bytes idx => some (ElemIter.jar bytes idx.nodes 0)
          | _ => none) = _
        rw [hj]
      · rw [elemIterDenot_jar, List.drop_zero]
        show _ = (match jarInit (sysOfTree root infl bd) n with
          | .ok bytes idx => idx.nodes.map (fun nd => entryName bytes nd.entry)
          | _ => [])
        rw [hj]
  | builtin n =>
    rcases hj : builtinInit (sysOfTree root infl bd) n with _ | _ | ⟨bytes, idx⟩
    · exfalso
      have hfalse : elemOK root (sysOfTree root infl bd) (.builtin n) = false := by
        show (match builtinInit (sysOfTree root infl bd) n with
          | .ok _ _ => true
          | _ => false) = false
        rw [hj]
      rw [hfalse] at hok
      cases hok
    · exfalso
      have hfalse : elemOK root (sysOfTree root infl bd) (.builtin n) = false := by
        show (match builtinInit (sysOfTree root infl bd) n with
          | .ok _ _ => true
          | _ => false) = false
        rw [hj]
      rw [hfalse] at hok
      cases hok
    · refine ⟨.jar bytes idx.nodes 0, ?_, elemIterInv_jar, ?_⟩
      · show (match builtinInit (sysOfTree root infl bd) n with
          | .ok bytes idx => some (ElemIter.jar bytes idx.nodes 0)
          | _ => none) = _
        rw [hj]
      · rw [elemIterDenot_jar, List.drop_zero]
        show _ = (match builtinInit (sysOfTree root infl bd) n with
          | .ok bytes idx => idx.nodes.map (fun nd => entryName bytes nd.entry)
          | _ => [])
        rw [hj]

theorem myIterNext_cur_none {sys : Sys} {rest : List Element} :
    myIterNext sys rest none = none := rfl

theorem myIterNext_cur_some_yield {sys : Sys} {rest : List Element} {it it' : ElemIter}
    {v : List Nat} (h : elemIterNext sys it = some (v, it')) :
    myIterNext sys rest (some it) = some (v, (rest, some it')) := by
  show (match elemIterNext sys it with
    | some (v, it') => some (v, (rest, some it'))
    | none => myIterAux sys rest) = _
  rw [h]

theorem myIterNext_exhaust {sys : Sys} {rest : List Element} {it : ElemIter}
    (h : elemIterNext sys it = none) :
    myIterNext sys rest (some it) = myIterAux sys rest := by
  show (match elemIterNext sys it with
    | some (v, it') => some (v, (rest, some it'))
    | none => myIterAux sys rest) = _
  rw [h]

theorem myIterAux_nil {sys : Sys} : myIterAux sys [] = none := rfl

theorem myIterAux_cons_of_none {sys : Sys} {e : Element} {rest' : List Element}
    (h : elementIterator sys e = none) :
    myIterAux sys (e :: rest') = none := by
  show (match elementIterator sys e with
    | none => none
    | some it0 =>
      match elemIterNext sys it0 with
      | some (v, it') => some (v, (rest', some it'))
      | none => myIterAux sys rest') = _
  rw [h]

theorem myIterAux_cons_of_some {sys : Sys} {e : Element} {rest' : List Element}
    {it0 : ElemIter} (h : elementIterator sys e = some it0) :
    myIterAux sys (e :: rest') =
      match elemIterNext sys it0 with
      | some (v, it') => some (v, (rest', some it'))
      | none => myIterAux sys rest' := by
  show (match elementIterator sys e with
    | none => none
    | some it0 =>
      match elemIterNext sys it0 with
      | some (v, it') => some (v, (rest', some it'))
      | none => myIterAux sys rest') = _
  rw [h]

theorem myAuxStep {root : FsTree} (infl : List Nat → Nat → Option (List Nat))
    (bd : List Nat → Option (List Nat)) (hroot : treeWF root = true) :
    ∀ rest : List Element, (∀ e ∈ rest, elemOK root (sysOfTree root infl bd) e = true) →
      (myIterAux (sysOfTree root infl bd) rest = none →
        concatMap (elemDenot root (sysOfTree root infl bd)) rest = []) ∧
      (∀ v st', myIterAux (sysOfTree root infl bd) rest = some (v, st') →
        concatMap (elemDenot root (sysOfTree root infl bd)) rest =
          v :: (optDenot root st'.2 ++
            concatMap (elemDenot root (sysOfTree root infl bd)) st'.1) ∧
        myInv root (sysOfTree root infl bd) st'.1 st'.2) := by
  intro rest
  induction rest with
  | nil =>
    intro _
    refine ⟨fun _ => rfl, fun v st' h => ?_⟩
    rw [myIterAux_nil] at h
    cases h
  | cons e rest' ih =>
    intro hok
    have hoke : elemOK root (sysOfTree root infl bd) e = true := hok e (by simp)
    obtain ⟨it₀, hit₀, hinv₀, hden₀⟩ := elementIterator_spec infl bd hroot e hoke
    have hes := elemStep infl bd hroot it₀ hinv₀
    have hrec := ih (fun x hx => hok x (by simp [hx]))
    rcases hen : elemIterNext (sysOfTree root infl bd) it₀ with _ | ⟨v0, it0'⟩
    · have heq : myIterAux (sysOfTree root infl bd) (e :: rest') =
          myIterAux (sysOfTree root infl bd) rest' := by
        rw [myIterAux_cons_of_some hit₀, hen]
      have hde : elemDenot root (sysOfTree root infl bd) e = [] := by
        rw [← hden₀]
        exact hes.1 hen
      refine ⟨fun hn => ?_, fun v st' h => ?_⟩
      · rw [heq] at hn
        rw [concatMap_cons, hde, List.nil_append]
        exact hrec.1 hn
      · rw [heq] at h
        rw [concatMap_cons, hde, List.nil_append]
        exact hrec.2 v st' h
    · have heq : myIterAux (sysOfTree root infl bd) (e :: rest') =
          some (v0, (rest', some it0')) := by
        rw [myIterAux_cons_of_some hit₀, hen]
      refine ⟨fun hn => ?_, fun v st' h => ?_⟩
      · rw [heq] at hn
        cases hn
      · rw [heq] at h
        injection h with h1
        injection h1 with hv hst
        subst hv
        subst hst
        constructor
        · rw [concatMap_cons, ← hden₀, (hes.2 v0 it0' hen).1]
          rfl
        · exact myInv_some.mpr ⟨fun x hx => hok x (by simp [hx]), (hes.2 v0 it0' hen).2⟩

theorem drainMy_zero {sys : Sys} {st : List Element × Option ElemIter} :
    drainMy sys 0 st = [] := rfl

theorem drainMy_succ_of_none {sys : Sys} {fuel : Nat} (st : List Element × Option ElemIter)
    (h : myIterNext sys st.1 st.2 = none) :
    drainMy sys (fuel + 1) st = [] := by
  simp only [drainMy]
  rw [h]

theorem drainMy_succ_of_some {sys : Sys} {fuel : Nat} (st : List Element × Option ElemIter)
    {st' : List Element × Option ElemIter}
    {v : List Nat} (h : myIterNext sys st.1 st.2 = some (v, st')) :
    drainMy sys (fuel + 1) st = v :: drainMy sys fuel st' := by
  simp only [drainMy]
  rw [h]

theorem myNextStep {root : FsTree} (infl : List Nat → Nat → Option (List Nat))
    (bd : List Nat → Option (List Nat)) (hroot : treeWF root = true) :
    ∀ (rest : List Element) (cur : Option ElemIter),
      myInv root (sysOfTree root infl bd) rest cur →
      (myIterNext (sysOfTree root infl bd) rest cur = none →
        optDenot root cur ++ concatMap (elemDenot root (sysOfTree root infl bd)) rest = []) ∧
      (∀ v st', myIterNext (sysOfTree root infl bd) rest cur = some (v, st') →
        optDenot root cur ++ concatMap (elemDenot root (sysOfTree root infl bd)) rest =
          v :: (optDenot root st'.2 ++
            concatMap (elemDenot root (sysOfTree root infl bd)) st'.1) ∧
        myInv root (sysOfTree root infl bd) st'.1 st'.2) := by
  intro rest cur hinv
  cases cur with
  | none =>
    have hnil : rest = [] := (myInv_none.mp hinv).2
    subst hnil
    refine ⟨fun _ => rfl, fun v st' h => ?_⟩
    rw [myIterNext_cur_none] at h
    cases h
  | some it =>
    have hokall := (myInv_some.mp hinv).1
    have hes := elemStep infl bd hroot it (myInv_some.mp hinv).2
    have haux := myAuxStep infl bd hroot rest hokall
    rcases hen : elemIterNext (sysOfTree root infl bd) it with _ | ⟨v0, it0⟩
    · have hde : optDenot root (some it) = [] := hes.1 hen
      refine ⟨fun hn => ?_, fun v st' h => ?_⟩
      · rw [myIterNext_exhaust hen] at hn
        rw [hde, List.nil_append]
        exact haux.1 hn
      · rw [myIterNext_exhaust hen] at h
        rw [hde, List.nil_append]
        exact haux.2 v st' h
    · refine ⟨fun hn => ?_, fun v st' h => ?_⟩
      · rw [myIterNext_cur_some_yield hen] at hn
        cases hn
      · rw [myIterNext_cur_some_yield hen] at h
        injection h with h1
        injection h1 with hv hst
        subst hv
        subst hst
        constructor
        · rw [optDenot_some, (hes.2 v0 it0 hen).1]
          rfl
        · exact myInv_some.mpr ⟨hokall, (hes.2 v0 it0 hen).2⟩

theorem splitPath_yield {p : List Nat} {skip : Nat} {v : List Nat}
    (hskip : skip ≤ p.length + 1) (h47 : 47 ∉ v) (hne : v ≠ []) :
    splitPath ((p ++ 47 :: v).drop skip) =
      splitPath ((p ++ [47]).drop skip) ++ [v] := by
  have h1 : p ++ 47 :: v = (p ++ [47]) ++ v := by
    rw [List.append_assoc]
    rfl
  have hle : skip ≤ (p ++ [47]).length := by
    simp only [List.length_append, List.length_singleton]
    omega
  rw [h1, List.drop_append_of_le_length hle]
  exact splitPath_append_of_ends47 (drop_append47_shape p hskip) h47 hne

mutual

theorem treeEnum_clean : ∀ (t : FsTree) (p : List Nat) (skip : Nat),
    treeWF t = true → skip ≤ p.length + 1 →
    (∀ c ∈ splitPath ((p ++ [47]).drop skip), c ≠ [] ∧ 47 ∉ c ∧ c.head? ≠ some 46) →
    ∀ out ∈ treeEnum p skip t, ∀ c ∈ splitPath out, c ≠ [] ∧ c.head? ≠ some 46
  | .file _, p, skip => by
    intro _ _ _ out hout
    rw [treeEnum_file] at hout
    cases hout
  | .dir es, p, skip => by
    intro hwf hskip hpre out hout
    rw [treeEnum_dir] at hout
    obtain ⟨hnames, _, hentries⟩ := treeWF_dir hwf
    exact treeEnumEntries_clean es p skip hnames hentries hskip hpre out hout

theorem treeEnumEntries_clean : ∀ (es : List (List Nat × FsTree)) (p : List Nat)
    (skip : Nat),
    (es.map Prod.fst).all (fun v => !v.isEmpty && allNe 47 v) = true →
    treeWFEntries es = true → skip ≤ p.length + 1 →
    (∀ c ∈ splitPath ((p ++ [47]).drop skip), c ≠ [] ∧ 47 ∉ c ∧ c.head? ≠ some 46) →
    ∀ out ∈ treeEnumEntries p skip es, ∀ c ∈ splitPath out, c ≠ [] ∧ c.head? ≠ some 46
  | [], p, skip => by
    intro _ _ _ _ out hout
    rw [treeEnumEntries_nil] at hout
    cases hout
  | (v, t) :: rest, p, skip => by
    intro hnames hwfes hskip hpre out hout
    have hvok : v ≠ [] ∧ 47 ∉ v := entry_name_ok (t := t) hnames (by simp)
    have hnames' : (rest.map Prod.fst).all (fun v => !v.isEmpty && allNe 47 v) = true := by
      simp only [List.map_cons, List.all_cons, Bool.and_eq_true] at hnames
      exact hnames.2
    have hwfes' : treeWFEntries rest = true ∧ treeWF t = true := by
      simp only [treeWFEntries, Bool.and_eq_true] at hwfes
      exact ⟨hwfes.2, hwfes.1⟩
    rw [treeEnumEntries_cons] at hout
    rcases List.mem_append.mp hout with hout | hout
    · by_cases hdot : v.head? = some 46
      · rw [if_pos hdot] at hout
        cases hout
      · rw [if_neg hdot] at hout
        rcases List.mem_cons.mp hout with hout | hout
        · subst hout
          intro c hc
          rw [splitPath_yield hskip hvok.2 hvok.1] at hc
          rcases List.mem_append.mp hc with hc | hc
          · have h := hpre c hc
            exact ⟨h.1, h.2.2⟩
          · rw [List.mem_singleton] at hc
            subst hc
            exact ⟨hvok.1, hdot⟩
        · have hskip' : skip ≤ (p ++ 47 :: v).length + 1 := by
            simp only [List.length_append, List.length_cons]
            omega
          have hpre' : ∀ c ∈ splitPath (((p ++ 47 :: v) ++ [47]).drop skip),
              c ≠ [] ∧ 47 ∉ c ∧ c.head? ≠ some 46 := by
            intro c hc
            have heq : ((p ++ 47 :: v) ++ [47]).drop skip =
                (p ++ [47]).drop skip ++ (v ++ [47]) := by
              have hassoc : (p ++ 47 :: v) ++ [47] = (p ++ [47]) ++ (v ++ [47]) := by
                simp [List.append_assoc]
              have hle : skip ≤ (p ++ [47]).length := by
                simp only [List.length_append, List.length_singleton]
                omega
              rw [hassoc, List.drop_append_of_le_length hle]
            rw [heq] at hc
            have hsp : splitPath ((p ++ [47]).drop skip ++ (v ++ [47])) =
                splitPath ((p ++ [47]).drop skip) ++ [v] := by
              have h1 : (p ++ [47]).drop skip ++ (v ++ [47]) =
                  ((p ++ [47]).drop skip ++ v) ++ [47] := by
                rw [List.append_assoc]
              rw [h1, splitPath_trailing47,
                splitPath_append_of_ends47 (drop_append47_shape p hskip) hvok.2 hvok.1]
            rw [hsp] at hc
            rcases List.mem_append.mp hc with hc | hc
            · exact hpre c hc
            · rw [List.mem_singleton] at hc
              subst hc
              exact ⟨hvok.1, hvok.2, hdot⟩
          exact treeEnum_clean t (p ++ 47 :: v) skip hwfes'.2 hskip' hpre' out hout
    · exact treeEnumEntries_clean rest p skip hnames' hwfes'.1 hskip hpre out hout

end

theorem drainMy_denot {root : FsTree} (infl : List Nat → Nat → Option (List Nat))
    (bd : List Nat → Option (List Nat)) (hroot : treeWF root = true) :
    ∀ (m : Nat) (rest : List Element) (cur : Option ElemIter),
      myInv root (sysOfTree root infl bd) rest cur →
      (optDenot root cur ++
        concatMap (elemDenot root (sysOfTree root infl bd)) rest).length ≤ m →
      drainMy (sysOfTree root infl bd) m (rest, cur) =
        optDenot root cur ++ concatMap (elemDenot root (sysOfTree root infl bd)) rest := by
  intro m
  induction m with
  | zero =>
    intro rest cur hinv hlen
    rw [List.eq_nil_of_length_eq_zero (Nat.le_zero.mp hlen), drainMy_zero]
  | succ m ih =>
    intro rest cur hinv hlen
    have hstep := myNextStep infl bd hroot rest cur hinv
    rcases hmn : myIterNext (sysOfTree root infl bd) rest cur with _ | ⟨v, st'⟩
    · rw [drainMy_succ_of_none (rest, cur) hmn, hstep.1 hmn]
    · have hr := hstep.2 v st' hmn
      rw [drainMy_succ_of_some (rest, cur) hmn, hr.1]
      congr 1
      have hlen' : (optDenot root st'.2 ++
          concatMap (elemDenot root (sysOfTree root infl bd)) st'.1).length ≤ m := by
        rw [hr.1] at hlen
        simpa using hlen
      exact ih st'.1 st'.2 hr.2 hlen'

/-- C7: the sequence `Finder.iterator()` produces is the concatenation, in
path order, of each element's own enumeration in its natural order — the
depth-first pre-order directory walk in listing order, or the archive's
central-directory insertion order — and a directory element's enumeration
never yields a path any of whose components begins with `'.'` (46), while
still descending into subdirectories (their subtrees appear in the
enumeration).  Stated over the model filesystem, for elements whose
initialization succeeds and with enough fuel to run the lazy iterator to
completion. -/
theorem iterator_concatenation_and_dot_skip (root : FsTree)
    (infl : List Nat → Nat → Option (List Nat)) (bd : List Nat → Option (List Nat))
    (es : List Element) (fuel : Nat)
    (hroot : treeWF root = true)
    (hok : ∀ e ∈ es, elemOK root (sysOfTree root infl bd) e = true)
    (hfuel : (concatMap (elemDenot root (sysOfTree root infl bd)) es).length ≤ fuel) :
    drainMy (sysOfTree root infl bd) fuel (myIterNew (sysOfTree root infl bd) es) =
      concatMap (elemDenot root (sysOfTree root infl bd)) es ∧
    (∀ n t, lookupPath (splitPath n) root = some t →
      ∀ out ∈ treeEnum n (n.length + 1) t, ∀ c ∈ splitPath out,
        c ≠ [] ∧ c.head? ≠ some 46) := by
  constructor
  · cases es with
    | nil =>
      cases fuel with
      | zero => rfl
      | succ m =>
        rw [show myIterNew (sysOfTree root infl bd) [] = ([], none) from rfl]
        rw [drainMy_succ_of_none ([], none) myIterNext_cur_none]
        rfl
    | cons e rest =>
      rw [show myIterNew (sysOfTree root infl bd) (e :: rest) =
        (rest, elementIterator (sysOfTree root infl bd) e) from rfl]
      have hoke := hok e (by simp)
      obtain ⟨it₀, hit₀, hinv₀, hden₀⟩ := elementIterator_spec infl bd hroot e hoke
      rw [hit₀]
      have hinv : myInv root (sysOfTree root infl bd) rest (some it₀) :=
        myInv_some.mpr ⟨fun x hx => hok x (by simp [hx]), hinv₀⟩
      rw [concatMap_cons] at hfuel ⊢
      have hlen : (optDenot root (some it₀) ++
          concatMap (elemDenot root (sysOfTree root infl bd)) rest).length ≤ fuel := by
        rw [optDenot_some, hden₀]
        exact hfuel
      rw [drainMy_denot infl bd hroot fuel rest (some it₀) hinv hlen]
      rw [optDenot_some, hden₀]
  · intro n t hlk out hout c hc
    have hwt : treeWF t = true := lookup_treeWF hroot hlk
    have hpre : ∀ c ∈ splitPath ((n ++ [47]).drop (n.length + 1)),
        c ≠ [] ∧ 47 ∉ c ∧ c.head? ≠ some 46 := by
      intro c hc2
      exfalso
      have hdrop : (n ++ [47]).drop (n.length + 1) = [] := by
        apply List.drop_eq_nil_of_le
        simp
      rw [hdrop, splitPath_nil] at hc2
      cases hc2
    exact treeEnum_clean t n (n.length + 1) hwt (by omega) hpre out hout c hc

/-- C7 witness: the concrete two-element path (a directory with a dot-file
and a subdirectory, then a jar) drains to exactly the concatenated
enumerations — the dot-file skipped, the subdirectory yielded and descended
into, then the archive entry. -/
theorem iterator_concatenation_witness :
    drainMy sysC7 50 (myIterNew sysC7 elsC7) =
      concatMap (elemDenot treeC7 sysC7) elsC7 ∧
    drainMy sysC7 50 (myIterNew sysC7 elsC7) =
      [[97, 46, 116], [115], [115, 47, 98], [97]] :=
  ⟨(iterator_concatenation_and_dot_skip treeC7 (fun _ _ => none) (fun _ => none) elsC7 50
      (by decide) (by decide) (by decide)).1,
   by decide⟩

end AvianFinder
